import Mathlib

/-!
Verification of the `game-solver` search engine.

The engine (`negamax`, `solve`, `move_scores`, `par_move_scores`) lives in
`src/src/lib.rs` and is generic over a `Game` trait and a transposition-table
trait whose definitions are not part of the sources; their shapes are modelled
from the specification.  The utility layer (`GameState`,
`find_immediately_resolvable_game`, `upper_bound`, `score_to_outcome`) is
translated from `src/crates/game-solver/src/game.rs`.

Machine integers (`isize`, `usize`) are modelled as unbounded `Int`/`Nat`;
the casts `usize as isize` and `isize as usize` appearing in
`upper_bound`/`score_to_outcome` are modelled explicitly with wrap-around
modulo `2^64`.  Rust's truncating integer division is `Int.tdiv`.
Possible non-termination of the recursion is modelled with an explicit fuel
parameter: `none` stands for a computation that did not finish.
-/

namespace GameSolver

/-- Modelled from the spec: `TranspositionTableScore` (the transposition
module is not among the sources): a proven bound for a position, either an
upper bound or a lower bound on its score. -/
inductive TTScore where
  | UpperBound : Int → TTScore
  | LowerBound : Int → TTScore
deriving DecidableEq

/-- Modelled from the spec: the transposition table is a keyed memo store
mapping positions to proven bounds.  It is modelled as an association list;
`insert` prepends, so the most recent binding for a key shadows older ones,
matching map-insert semantics. -/
abbrev TT (Pos : Type) : Type := List (Pos × TTScore)

/-- Modelled from the spec: `TranspositionTable::get`. -/
def ttGet [DecidableEq Pos] (tt : TT Pos) (p : Pos) : Option TTScore :=
  (List.find? (fun e => decide (e.1 = p)) tt).map (fun e => e.2)

/-- Modelled from the spec: `TranspositionTable::insert`. -/
def ttInsert (tt : TT Pos) (p : Pos) (s : TTScore) : TT Pos :=
  (p, s) :: tt

/-- Modelled from the spec: the `Game` trait consumed by `src/src/lib.rs`
(`crate::game::Game` is not among the sources; §9 of the spec records its
shape: `is_draw`, `possible_moves`, `is_winning_move`, `make_move`, `score`,
`min_score`, `max_score`, plus `move_count`/`max_moves` used by the
termination argument).  `make_move` returns the successor position together
with a flag recording whether move application reported a `MoveError`; the
engine in `lib.rs` discards that `Result`, which the embedding mirrors by
never inspecting the flag inside the search. -/
structure GameIF (Pos M : Type) where
  is_draw : Pos → Bool
  possible_moves : Pos → List M
  is_winning_move : Pos → M → Bool
  make_move : Pos → M → Pos × Bool
  score : Pos → Int
  max_score : Pos → Int
  min_score : Pos → Int
  move_count : Pos → Nat
  max_moves : Pos → Option Nat

/-- Score evaluation of one child inside the move loop of `negamax`
(src/src/lib.rs lines 74-83): the first child is searched with the full
window, later children are probed with a null window and re-searched with
the full window only when the probe beats `alpha`.  `rec` is the recursive
call at one level less fuel. -/
def evalChild (rec : Pos → TT Pos → Int → Int → Option (Int × TT Pos))
    (board : Pos) (tt : TT Pos) (alpha beta : Int) (first : Bool) :
    Option (Int × TT Pos) :=
  if first then
    match rec board tt (-beta) (-alpha) with
    | none => none
    | some (r, tt1) => some (-r, tt1)
  else
    match rec board tt (-alpha - 1) (-alpha) with
    | none => none
    | some (r, tt1) =>
      if -r > alpha then
        match rec board tt1 (-beta) (-alpha) with
        | none => none
        | some (r2, tt2) => some (-r2, tt2)
      else some (-r, tt1)

/-- Move loop of `negamax` (src/src/lib.rs lines 70-100): evaluate each
child; on a beta cutoff store `LowerBound(score)` and return `beta`;
otherwise raise the running `alpha` and continue; after the last child store
`UpperBound(alpha)` and return `alpha`. -/
def negamaxLoop (g : GameIF Pos M) (game : Pos)
    (rec : Pos → TT Pos → Int → Int → Option (Int × TT Pos)) :
    List M → TT Pos → Int → Int → Bool → Option (Int × TT Pos)
  | [], tt, alpha, _beta, _first =>
    some (alpha, ttInsert tt game (TTScore.UpperBound alpha))
  | m :: ms, tt, alpha, beta, first =>
    match evalChild rec ((g.make_move game m).1) tt alpha beta first with
    | none => none
    | some (s, tt1) =>
      if s ≥ beta then some (beta, ttInsert tt1 game (TTScore.LowerBound s))
      else negamaxLoop g game rec ms tt1 (if s > alpha then s else alpha) beta false

/-- Translation of `negamax` (src/src/lib.rs lines 22-101), with fuel making
the recursion total: `none` models a run that does not terminate within
`fuel` levels of recursion.  Order of steps as in the source: draw check,
immediate-winning-move scan, transposition probe with window tightening and
possible early return, then the move loop. -/
def negamax [DecidableEq Pos] (g : GameIF Pos M) :
    Nat → Pos → TT Pos → Int → Int → Option (Int × TT Pos)
  | 0, _, _, _, _ => none
  | fuel + 1, game, tt, alpha, beta =>
    if g.is_draw game then some (0, tt)
    else
      match List.find? (fun m => g.is_winning_move game m) (g.possible_moves game) with
      | some m => some (g.score (g.make_move game m).1, tt)
      | none =>
        match (ttGet tt game).getD (TTScore.UpperBound (g.max_score game)) with
        | TTScore.UpperBound mx =>
          if beta > mx then
            if alpha ≥ mx then some (mx, tt)
            else negamaxLoop g game (negamax g fuel) (g.possible_moves game) tt alpha mx true
          else negamaxLoop g game (negamax g fuel) (g.possible_moves game) tt alpha beta true
        | TTScore.LowerBound mn =>
          if alpha < mn then
            if mn ≥ beta then some (mn, tt)
            else negamaxLoop g game (negamax g fuel) (g.possible_moves game) tt mn beta true
          else negamaxLoop g game (negamax g fuel) (g.possible_moves game) tt alpha beta true

/-- Iterative-deepening loop of `solve` (src/src/lib.rs lines 118-127):
`while alpha < beta` pick `med = alpha + (beta - alpha) / 2` (Rust division
truncates, hence `Int.tdiv`), run a null-window `negamax (med, med + 1)` and
narrow the range with the result. -/
def solveLoop [DecidableEq Pos] (g : GameIF Pos M) (fuel : Nat) (game : Pos) :
    TT Pos → Int → Int → Option (Int × TT Pos)
  | tt, alpha, beta =>
    if h : alpha < beta then
      let med := alpha + Int.tdiv (beta - alpha) 2
      match negamax g fuel game tt med (med + 1) with
      | none => none
      | some (r, tt1) =>
        if hr : r ≤ med then solveLoop g fuel game tt1 alpha r
        else solveLoop g fuel game tt1 r beta
    else some (alpha, tt)
  termination_by tt alpha beta => (beta - alpha).toNat
  decreasing_by
  · have h2 : Int.tdiv (beta - alpha) 2 = (beta - alpha) / 2 :=
      Int.tdiv_eq_ediv (by omega) (by omega)
    unfold_let med at hr
    rw [h2] at hr
    omega
  · have h2 : Int.tdiv (beta - alpha) 2 = (beta - alpha) / 2 :=
      Int.tdiv_eq_ediv (by omega) (by omega)
    unfold_let med at hr
    rw [h2] at hr
    omega

/-- Translation of `solve` (src/src/lib.rs lines 111-130): iterative
deepening over the window `[min_score, max_score + 1)`. -/
def solve [DecidableEq Pos] (g : GameIF Pos M) (fuel : Nat) (game : Pos)
    (tt : TT Pos) : Option (Int × TT Pos) :=
  solveLoop g fuel game tt (g.min_score game) (g.max_score game + 1)

/-- Helper for `move_scores`: solve each child in order, threading the
transposition table through the successive `solve` calls (the Rust iterator
holds the table mutably across `next()` calls). -/
def move_scoresAux [DecidableEq Pos] (g : GameIF Pos M) (fuel : Nat) (game : Pos) :
    List M → TT Pos → Option (List (M × Int) × TT Pos)
  | [], tt => some ([], tt)
  | m :: ms, tt =>
    match solve g fuel ((g.make_move game m).1) tt with
    | none => none
    | some (r, tt1) =>
      match move_scoresAux g fuel game ms tt1 with
      | none => none
      | some (rest, tt2) => some ((m, -r) :: rest, tt2)

/-- Translation of `move_scores` (src/src/lib.rs lines 140-151): one
`(move, -solve(child))` pair per legal move, sharing one table. -/
def move_scores [DecidableEq Pos] (g : GameIF Pos M) (fuel : Nat) (game : Pos)
    (tt : TT Pos) : Option (List (M × Int) × TT Pos) :=
  move_scoresAux g fuel game (g.possible_moves game) tt

/-- Helper for the parallel evaluator: move `i` is solved against the table
state `tts i`. -/
def par_move_scoresAux [DecidableEq Pos] (g : GameIF Pos M) (fuel : Nat) (game : Pos) :
    List M → Nat → (Nat → TT Pos) → Option (List (M × Int))
  | [], _, _ => some []
  | m :: ms, i, tts =>
    match solve g fuel ((g.make_move game m).1) (tts i) with
    | none => none
    | some (r, _) =>
      match par_move_scoresAux g fuel game ms (i + 1) tts with
      | none => none
      | some rest => some ((m, -r) :: rest)

/-- Model of `par_move_scores_with_hasher` (src/src/lib.rs lines 163-186):
the moves are collected and each child is solved as an independent unit of
work against a shared concurrent table.  The shared mutable table under an
arbitrary interleaving of workers is modelled by the parameter `tts`, giving
the table contents each worker observes when it starts; the hasher only
selects the bucket layout of the concurrent map and has no observable effect
on `get`/`insert`, so it does not appear in the model. -/
def par_move_scores_with_hasher [DecidableEq Pos] (g : GameIF Pos M) (fuel : Nat)
    (game : Pos) (tts : Nat → TT Pos) : Option (List (M × Int)) :=
  par_move_scoresAux g fuel game (g.possible_moves game) 0 tts

/-- Model of `par_move_scores` (src/src/lib.rs lines 199-213): starts from a
freshly created shared table (empty before any worker runs). -/
def par_move_scores [DecidableEq Pos] (g : GameIF Pos M) (fuel : Nat)
    (game : Pos) : Option (List (M × Int)) :=
  par_move_scores_with_hasher g fuel game (fun _ => ([] : TT Pos))

/-- Translation of `GameState` (src/crates/game-solver/src/game.rs lines
8-17). -/
inductive GameState (P : Type) where
  | Playable : GameState P
  | Tie : GameState P
  | Win : P → GameState P
deriving DecidableEq

/-- Translation of the `Game` trait of src/crates/game-solver/src/game.rs
(lines 62-173), restricted to the members the verified utilities use.
`make_move` is fallible (`Result<(), MoveError>` in the source, here
`Except E Pos` producing the updated position).  `turn` is `Player::turn`
applied to the current player; the `player` module is not among the sources,
so `turn` is kept abstract as a field (modelled from the spec: for the
two-party zero-sum case it identifies the player about to move). -/
structure GameT (Pos M P E : Type) where
  possible_moves : Pos → List M
  make_move : Pos → M → Except E Pos
  state : Pos → GameState P
  player : Pos → P
  turn : P → P
  move_count : Pos → Nat
  max_moves : Pos → Option Nat

/-- Loop of the default `find_immediately_resolvable_game`
(src/crates/game-solver/src/game.rs lines 109-127), with the accumulator
`best` holding `best_non_winning_game`. -/
def firgAux [DecidableEq P] (g : GameT Pos M P E) (p : Pos) :
    List M → Option Pos → Except E (Option Pos)
  | [], best => Except.ok best
  | m :: ms, best =>
    match g.make_move p m with
    | Except.error e => Except.error e
    | Except.ok c =>
      match g.state c with
      | GameState.Playable => firgAux g p ms best
      | GameState.Tie => firgAux g p ms (some c)
      | GameState.Win w =>
        if w = g.turn (g.player p) then Except.ok (some c)
        else if best.isNone then firgAux g p ms (some c)
        else firgAux g p ms best

/-- Translation of `find_immediately_resolvable_game`
(src/crates/game-solver/src/game.rs lines 109-127). -/
def find_immediately_resolvable_game [DecidableEq P] (g : GameT Pos M P E)
    (p : Pos) : Except E (Option Pos) :=
  firgAux g p (g.possible_moves p) none

/-- Value of `isize::MAX` on a 64-bit target. -/
def isizeMAX : Int := 2 ^ 63 - 1

/-- The Rust cast `usize as isize` on a 64-bit target: reinterpret the low
64 bits as a two's-complement signed value. -/
def usizeToIsize (n : Nat) : Int :=
  if n % 2 ^ 64 < 2 ^ 63 then ((n % 2 ^ 64 : Nat) : Int)
  else ((n % 2 ^ 64 : Nat) : Int) - 2 ^ 64

/-- The Rust cast `isize as usize` on a 64-bit target: reinterpret the two's
complement bits as unsigned. -/
def isizeToUsize (x : Int) : Nat := (x % 2 ^ 64).toNat

/-- Translation of `upper_bound` (src/crates/game-solver/src/game.rs lines
182-184): `max_moves().map_or(isize::MAX, |m| m as isize)`. -/
def upper_bound (g : GameT Pos M P E) (p : Pos) : Int :=
  match g.max_moves p with
  | none => isizeMAX
  | some m => usizeToIsize m

/-- Translation of `GameScoreOutcome` (src/crates/game-solver/src/game.rs
lines 188-194). -/
inductive GameScoreOutcome where
  | Win : Nat → GameScoreOutcome
  | Loss : Nat → GameScoreOutcome
  | Tie : GameScoreOutcome
deriving DecidableEq

/-- Translation of `score_to_outcome` (src/crates/game-solver/src/game.rs
lines 198-204): match on `score.cmp(&0)` with the two `as usize` casts. -/
def score_to_outcome (g : GameT Pos M P E) (p : Pos) (score : Int) :
    GameScoreOutcome :=
  if 0 < score then
    GameScoreOutcome.Win
      (isizeToUsize (-score + upper_bound g p - usizeToIsize (g.move_count p)))
  else if score = 0 then GameScoreOutcome.Tie
  else
    GameScoreOutcome.Loss
      (isizeToUsize (score + upper_bound g p - usizeToIsize (g.move_count p)))

/-- Maximum of a list of integers (`0` for the empty list; only used on
nonempty lists). -/
def listMax : List Int → Int
  | [] => 0
  | [x] => x
  | x :: y :: ys => max x (listMax (y :: ys))

/-- Soundness of one stored transposition-table bound for the position it is
keyed by, with respect to the value function `val`: an `UpperBound v` asserts
`val p ≤ v`, a `LowerBound v` asserts `v ≤ val p` (spec §3,
`TranspositionTableScore`). -/
def Bsound (val : Pos → Int) (p : Pos) : TTScore → Prop
  | TTScore.UpperBound v => val p ≤ v
  | TTScore.LowerBound v => v ≤ val p

/-- Soundness of a transposition table: every bound stored for a position
satisfying the invariant `I` is a correct bound on that position's value. -/
def TTSound [DecidableEq Pos] (I : Pos → Prop) (val : Pos → Int)
    (tt : TT Pos) : Prop :=
  ∀ p, I p → ∀ b, ttGet tt p = some b → Bsound val p b

/-- Termination hypotheses of spec §4.4: on the invariant region `I` (closed
under the moves the search takes), every move application strictly increases
`move_count`, and `move_count` is bounded by `N` (a finite `max_moves`). -/
structure Terminating (g : GameIF Pos M) (I : Pos → Prop) (N : Nat) : Prop where
  closed : ∀ p m, I p → g.is_draw p = false →
    (∀ m' ∈ g.possible_moves p, g.is_winning_move p m' = false) →
    m ∈ g.possible_moves p → I (g.make_move p m).1
  bound : ∀ p, I p → g.move_count p ≤ N
  inc : ∀ p m, I p → m ∈ g.possible_moves p →
    g.move_count p < g.move_count (g.make_move p m).1

/-- Semantic hypotheses on a game, relative to an invariant region `I` and a
value function `val` (spec §3 and §4.4): on `I`, drawn positions have value
`0`; non-drawn positions have legal moves; an `is_winning_move` child's
`score` is the exact (positive) value of the parent; where no immediate
winning move exists the value satisfies the negamax equation; and values lie
within `[min_score, max_score]`. -/
structure Valid (g : GameIF Pos M) (I : Pos → Prop) (val : Pos → Int) : Prop where
  draw_val : ∀ p, I p → g.is_draw p = true → val p = 0
  nonempty : ∀ p, I p → g.is_draw p = false → g.possible_moves p ≠ []
  win_val : ∀ p m, I p → m ∈ g.possible_moves p → g.is_winning_move p m = true →
    g.score (g.make_move p m).1 = val p ∧ 0 < g.score (g.make_move p m).1
  bellman : ∀ p, I p → g.is_draw p = false →
    (∀ m ∈ g.possible_moves p, g.is_winning_move p m = false) →
    val p = listMax ((g.possible_moves p).map
      (fun m => -val (g.make_move p m).1))
  score_bounds : ∀ p, I p → g.min_score p ≤ val p ∧ val p ≤ g.max_score p

/-- Forced outcomes of a position under optimal play, defined directly from
the game interface.  `Forced g true p` says the player to move at `p` has a
winning strategy: either an immediately winning move, or a move to a
position that is lost for the opponent.  `Forced g false p` says the player
to move loses under optimal play: the position is not a draw, a move must be
made, and every move is non-winning and leads to a position won by the
opponent. -/
inductive Forced (g : GameIF Pos M) : Bool → Pos → Prop where
  | immediate : ∀ p m, g.is_draw p = false → m ∈ g.possible_moves p →
      g.is_winning_move p m = true → Forced g true p
  | step : ∀ p m, g.is_draw p = false → m ∈ g.possible_moves p →
      Forced g false (g.make_move p m).1 → Forced g true p
  | lost : ∀ p, g.is_draw p = false → g.possible_moves p ≠ [] →
      (∀ m ∈ g.possible_moves p, g.is_winning_move p m = false) →
      (∀ m ∈ g.possible_moves p, Forced g true (g.make_move p m).1) →
      Forced g false p

/-! Concrete instances used to exercise the theorems. -/

/-- A three-token subtraction game: position `p` holds `p` tokens, a move
takes one or two tokens, and taking the last token is an immediately
winning move.  Position `0` (previous player already won) lies outside the
invariant region `nimI`. -/
def nimGame : GameIF (Fin 4) (Fin 2) where
  is_draw _ := false
  possible_moves p :=
    if p.val = 0 then [] else if p.val = 1 then [0] else [0, 1]
  is_winning_move p m := decide (p.val = m.val + 1)
  make_move p m :=
    (⟨p.val - (m.val + 1), Nat.lt_of_le_of_lt (Nat.sub_le _ _) p.isLt⟩, false)
  score _ := 5
  max_score _ := 10
  min_score _ := -10
  move_count p := 3 - p.val
  max_moves _ := some 3

/-- Invariant region for `nimGame`: all positions with tokens left. -/
abbrev nimI : Fin 4 → Prop := fun p => p.val ≠ 0

/-- Value function for `nimGame`: positions 1 and 2 are wins for the mover
(value 5), position 3 is lost (value -5). -/
def nimVal : Fin 4 → Int := fun p =>
  if p.val = 3 then -5 else if p.val = 0 then 0 else 5

/-- A one-position game that is an immediate draw, used to refute the
window-clipping claim. -/
def drawGame : GameIF (Fin 1) (Fin 1) where
  is_draw _ := true
  possible_moves _ := []
  is_winning_move _ _ := false
  make_move p _ := (p, false)
  score _ := 0
  max_score _ := 0
  min_score _ := 0
  move_count _ := 0
  max_moves _ := some 0

/-- Game used to refute the `LowerBound(beta)` claim: position 0 has one
non-winning move to position 1, where a winning move to position 2 yields
`score 2 = -5`, so the child search under a null window returns -5 and the
parent's cutoff score is 5. -/
def cexGame : GameIF (Fin 3) (Fin 1) where
  is_draw _ := false
  possible_moves p := if p.val = 2 then [] else [0]
  is_winning_move p _ := decide (p.val = 1)
  make_move p _ := (if p.val = 0 then 1 else 2, false)
  score _ := -5
  max_score _ := 10
  min_score _ := -10
  move_count p := p.val
  max_moves _ := some 2

/-- Game in which every move application reports a `MoveError` (the `.2`
component), used to exhibit that the engine discards those errors. -/
def errGame : GameIF (Fin 2) (Fin 1) where
  is_draw p := decide (p.val = 1)
  possible_moves p := if p.val = 0 then [0] else []
  is_winning_move _ _ := false
  make_move _ _ := (1, true)
  score _ := 0
  max_score _ := 10
  min_score _ := -10
  move_count p := p.val
  max_moves _ := some 1

/-- Richer-trait game with a single move from position 0 to position 1,
which is won by player 0 (the mover). -/
def winT : GameT (Fin 2) (Fin 1) (Fin 2) Unit where
  possible_moves p := if p.val = 0 then [0] else []
  make_move _ _ := Except.ok 1
  state p := if p.val = 1 then GameState.Win 0 else GameState.Playable
  player _ := 0
  turn q := q
  move_count p := p.val
  max_moves _ := some 1

/-- Richer-trait game with `max_moves = 5` and `move_count = 1`, used for
the score-conversion and upper-bound witnesses. -/
def tinyT : GameT (Fin 1) (Fin 1) (Fin 1) Unit where
  possible_moves _ := []
  make_move p _ := Except.ok p
  state _ := GameState.Tie
  player _ := 0
  turn q := q
  move_count _ := 1
  max_moves _ := some 5

theorem le_listMax {x : Int} : ∀ {l : List Int}, x ∈ l → x ≤ listMax l
  | [y], h => by
    rcases List.mem_singleton.mp h with h
    simp [h, listMax]
  | y :: z :: zs, h => by
    rcases List.mem_cons.mp h with h | h
    · subst h
      exact le_max_left _ _
    · exact le_trans (le_listMax h) (le_max_right _ _)

theorem listMax_mem : ∀ {l : List Int}, l ≠ [] → listMax l ∈ l
  | [y], _ => by simp [listMax]
  | y :: z :: zs, _ => by
    rcases max_cases y (listMax (z :: zs)) with ⟨h1, _⟩ | ⟨h1, _⟩
    · exact List.mem_cons.mpr (Or.inl (by simpa [listMax] using h1))
    · refine List.mem_cons.mpr (Or.inr ?_)
      have h2 := listMax_mem (l := z :: zs) (by simp)
      simpa [listMax, h1] using h2

theorem listMax_lt {c : Int} : ∀ {l : List Int}, l ≠ [] → (∀ x ∈ l, x < c) →
    listMax l < c := by
  intro l hne hall
  exact hall _ (listMax_mem hne)

/-- The running fold used by the move loop: starting accumulator `a`,
maximum of `f m` over the list. -/
def loopMax (f : M → Int) (l : List M) (a : Int) : Int :=
  l.foldr (fun m acc => max (f m) acc) a

theorem loopMax_nil (f : M → Int) (a : Int) : loopMax f [] a = a := rfl

theorem loopMax_cons (f : M → Int) (a : Int) (m : M) (ms : List M) :
    loopMax f (m :: ms) a = max (f m) (loopMax f ms a) := rfl

theorem le_loopMax (f : M → Int) (a : Int) : ∀ l : List M, a ≤ loopMax f l a
  | [] => le_refl a
  | m :: ms => le_trans (le_loopMax f a ms) (le_max_right (f m) _)

theorem loopMax_max (f : M → Int) (a c : Int) :
    ∀ l : List M, loopMax f l (max a c) = max (loopMax f l a) c
  | [] => rfl
  | m :: ms => by
    rw [loopMax_cons, loopMax_cons, loopMax_max f a c ms]
    exact (max_assoc _ _ _).symm

theorem loopMax_eq_max (f : M → Int) (a : Int) :
    ∀ l : List M, l ≠ [] → loopMax f l a = max a (listMax (l.map f))
  | [m], _ => by simp [loopMax, listMax, max_comm]
  | m :: m' :: ms, _ => by
    have ih := loopMax_eq_max f a (m' :: ms) (by simp)
    rw [loopMax_cons, ih]
    simp only [List.map_cons, listMax]
    omega

theorem ttGet_insert_self [DecidableEq Pos] (tt : TT Pos) (p : Pos)
    (s : TTScore) : ttGet (ttInsert tt p s) p = some s := by
  simp [ttGet, ttInsert, List.find?]

theorem ttGet_insert_ne [DecidableEq Pos] (tt : TT Pos) (p q : Pos)
    (s : TTScore) (h : q ≠ p) : ttGet (ttInsert tt p s) q = ttGet tt q := by
  simp [ttGet, ttInsert, List.find?, h.symm]

theorem TTSound.insert [DecidableEq Pos] {I : Pos → Prop} {val : Pos → Int}
    {tt : TT Pos} (htt : TTSound I val tt) (p : Pos) (s : TTScore)
    (hs : Bsound val p s) : TTSound I val (ttInsert tt p s) := by
  intro q hq b hb
  by_cases hqp : q = p
  · subst hqp
    rw [ttGet_insert_self] at hb
    cases hb
    exact hs
  · rw [ttGet_insert_ne tt p q s hqp] at hb
    exact htt q hq b hb

/-- Fail-hard specification of a search call at position `p` with window
`(alpha, beta)`: it terminates, keeps the table sound, returns the exact
value when it lies strictly inside the window, and otherwise a result
pinched between the value and the violated window edge. -/
def NSpec [DecidableEq Pos] (I : Pos → Prop) (val : Pos → Int) (p : Pos)
    (alpha beta : Int) (res : Option (Int × TT Pos)) : Prop :=
  ∃ r tt', res = some (r, tt') ∧ TTSound I val tt' ∧
    (val p ≤ alpha → val p ≤ r ∧ r ≤ alpha) ∧
    (beta ≤ val p → beta ≤ r ∧ r ≤ val p) ∧
    (alpha < val p → val p < beta → r = val p)

theorem evalChild_spec [DecidableEq Pos] {I : Pos → Prop} {val : Pos → Int}
    {rec : Pos → TT Pos → Int → Int → Option (Int × TT Pos)} {board : Pos}
    (hrec : ∀ tt a b, TTSound I val tt → a < b →
      NSpec I val board a b (rec board tt a b))
    (tt : TT Pos) (alpha beta : Int) (first : Bool)
    (htt : TTSound I val tt) (hab : alpha < beta) :
    ∃ s tt1, evalChild rec board tt alpha beta first = some (s, tt1) ∧
      TTSound I val tt1 ∧
      (-(val board) ≤ alpha → -(val board) ≤ s ∧ s ≤ alpha) ∧
      (beta ≤ -(val board) → beta ≤ s ∧ s ≤ -(val board)) ∧
      (alpha < -(val board) → -(val board) < beta → s = -(val board))
  := by
  cases first
  · -- null-window probe, possibly followed by a full re-search
    obtain ⟨r, tt1, heq, hs, hA, hB, hC⟩ :=
      hrec tt (-alpha - 1) (-alpha) htt (by omega)
    by_cases hp : -r > alpha
    · obtain ⟨r2, tt2, heq2, hs2, hA2, hB2, hC2⟩ :=
        hrec tt1 (-beta) (-alpha) hs (by omega)
      refine ⟨-r2, tt2, ?_, hs2, ?_, ?_, ?_⟩
      · simp [evalChild, heq, heq2, hp]
      · intro h
        have := hB2 (by omega)
        omega
      · intro h
        have := hA2 (by omega)
        omega
      · intro h1 h2
        have := hC2 (by omega) (by omega)
        omega
    · -- probe failed low: the value is at most alpha and the probe is exact
      -- enough on that side
      have hle : -(val board) ≤ alpha := by
        by_contra hgt
        have := hA (by omega)
        omega
      have := hB (by omega)
      refine ⟨-r, tt1, ?_, hs, ?_, ?_, ?_⟩
      · simp [evalChild, heq, hp]
      · intro _
        omega
      · intro h
        omega
      · intro h1 h2
        omega
  · -- first child: full-window search
    obtain ⟨r, tt1, heq, hs, hA, hB, hC⟩ := hrec tt (-beta) (-alpha) htt (by omega)
    refine ⟨-r, tt1, ?_, hs, ?_, ?_, ?_⟩
    · simp [evalChild, heq]
    · intro h
      have := hB (by omega)
      omega
    · intro h
      have := hA (by omega)
      omega
    · intro h1 h2
      have := hC (by omega) (by omega)
      omega

theorem negamaxLoop_spec [DecidableEq Pos] {g : GameIF Pos M} {I : Pos → Prop}
    {val : Pos → Int} {rec : Pos → TT Pos → Int → Int → Option (Int × TT Pos)}
    (p : Pos) (beta : Int)
    (hrec : ∀ m ∈ g.possible_moves p, ∀ tt a b, TTSound I val tt → a < b →
      NSpec I val ((g.make_move p m).1) a b (rec ((g.make_move p m).1) tt a b))
    (hI : I p)
    (hle : ∀ m ∈ g.possible_moves p, -(val ((g.make_move p m).1)) ≤ val p) :
    ∀ ms tt alpha first,
      (∀ m ∈ ms, m ∈ g.possible_moves p) →
      TTSound I val tt → alpha < beta →
      val p ≤ loopMax (fun m => -(val ((g.make_move p m).1))) ms alpha →
      ∃ r tt', negamaxLoop g p rec ms tt alpha beta first = some (r, tt') ∧
        TTSound I val tt' ∧
        (loopMax (fun m => -(val ((g.make_move p m).1))) ms alpha < beta →
          r = loopMax (fun m => -(val ((g.make_move p m).1))) ms alpha) ∧
        (beta ≤ loopMax (fun m => -(val ((g.make_move p m).1))) ms alpha →
          beta ≤ r ∧ r ≤ loopMax (fun m => -(val ((g.make_move p m).1))) ms alpha)
  := by
  intro ms
  induction ms with
  | nil =>
    intro tt alpha first _hmem htt hab hvF
    rw [loopMax_nil] at hvF ⊢
    refine ⟨alpha, ttInsert tt p (TTScore.UpperBound alpha), rfl,
      htt.insert p _ hvF, fun _ => rfl, fun h => absurd hab (by omega)⟩
  | cons m ms ih =>
    intro tt alpha first hmem htt hab hvF
    have hm : m ∈ g.possible_moves p := hmem m (List.mem_cons_self m ms)
    obtain ⟨s, tt1, heqE, hs1, hA, hB, hC⟩ :=
      evalChild_spec (hrec m hm) tt alpha beta first htt hab
    rw [loopMax_cons] at hvF
    by_cases hsb : s ≥ beta
    · -- beta cutoff: the child refutes the window
      have hvb : beta ≤ -(val ((g.make_move p m).1)) := by
        by_contra hlt
        by_cases hva : -(val ((g.make_move p m).1)) ≤ alpha
        · have := hA hva
          omega
        · have := hC (by omega) (by omega)
          omega
      have hsv := hB hvb
      refine ⟨beta, ttInsert tt1 p (TTScore.LowerBound s), ?_, ?_, ?_, ?_⟩
      · simp [negamaxLoop, heqE, hsb]
      · exact hs1.insert p _ (le_trans hsv.2 (hle m hm))
      · rw [loopMax_cons]
        intro h
        have := le_max_left (-(val ((g.make_move p m).1)))
          (loopMax (fun m => -(val ((g.make_move p m).1))) ms alpha)
        omega
      · intro _
        rw [loopMax_cons]
        have := le_max_left (-(val ((g.make_move p m).1)))
          (loopMax (fun m => -(val ((g.make_move p m).1))) ms alpha)
        refine ⟨le_refl beta, by omega⟩
    · have hvltb : -(val ((g.make_move p m).1)) < beta := by
        by_contra hge
        have := hB (by omega)
        omega
      by_cases hva : -(val ((g.make_move p m).1)) ≤ alpha
      · -- child cannot raise alpha
        have hsa := hA hva
        have hbase := le_loopMax (fun m => -(val ((g.make_move p m).1))) alpha ms
        have hFF : loopMax (fun m => -(val ((g.make_move p m).1))) (m :: ms) alpha
            = loopMax (fun m => -(val ((g.make_move p m).1))) ms alpha := by
          rw [loopMax_cons]
          omega
        obtain ⟨r, tt', heq2, hs2, hF1, hF2⟩ :=
          ih tt1 alpha false (fun x hx => hmem x (List.mem_cons_of_mem m hx))
            hs1 hab (by omega)
        refine ⟨r, tt', ?_, hs2, ?_, ?_⟩
        · have hnotgt : ¬ s > alpha := by omega
          simp [negamaxLoop, heqE, hsb, hnotgt]
          exact heq2
        · rw [hFF]
          exact hF1
        · rw [hFF]
          exact hF2
      · -- child raises alpha to its exact score
        have hseq := hC (by omega) hvltb
        have hFF : loopMax (fun m => -(val ((g.make_move p m).1))) (m :: ms) alpha
            = loopMax (fun m => -(val ((g.make_move p m).1))) ms
                (-(val ((g.make_move p m).1))) := by
          have hmax : (-(val ((g.make_move p m).1)))
              = max alpha (-(val ((g.make_move p m).1))) := by omega
          rw [loopMax_cons, hmax, loopMax_max]
          omega
        obtain ⟨r, tt', heq2, hs2, hF1, hF2⟩ :=
          ih tt1 (-(val ((g.make_move p m).1))) false
            (fun x hx => hmem x (List.mem_cons_of_mem m hx)) hs1 hvltb
            (by rw [← hFF, loopMax_cons]; omega)
        refine ⟨r, tt', ?_, hs2, ?_, ?_⟩
        · have hgt : s > alpha := by omega
          simp [negamaxLoop, heqE, hsb, hgt]
          rw [hseq]
          exact heq2
        · rw [hFF]
          exact hF1
        · rw [hFF]
          exact hF2

theorem negamax_spec [DecidableEq Pos] (g : GameIF Pos M) (I : Pos → Prop)
    (val : Pos → Int) (N : Nat) (hT : Terminating g I N) (hV : Valid g I val) :
    ∀ fuel p tt alpha beta, I p → TTSound I val tt → alpha < beta →
      N < fuel + g.move_count p →
      NSpec I val p alpha beta (negamax g fuel p tt alpha beta)
  := by
  intro fuel
  induction fuel with
  | zero =>
    intro p tt alpha beta hI _htt _hab hfuel
    exact absurd (hT.bound p hI) (by omega)
  | succ fuel ih =>
    intro p tt alpha beta hI htt hab hfuel
    by_cases hd : g.is_draw p
    · have hv0 := hV.draw_val p hI hd
      refine ⟨0, tt, by simp [negamax, hd], htt, ?_, ?_, ?_⟩ <;>
        first
          | exact fun h => ⟨by omega, by omega⟩
          | exact fun h1 h2 => by omega
    · have hdf : g.is_draw p = false := by simpa using hd
      cases hfind : List.find? (fun m => g.is_winning_move p m) (g.possible_moves p) with
      | some m =>
        have hm : m ∈ g.possible_moves p := List.mem_of_find?_eq_some hfind
        have hw : g.is_winning_move p m = true := by
          simpa using List.find?_some hfind
        have hv := hV.win_val p m hI hm hw
        refine ⟨g.score (g.make_move p m).1, tt, by simp [negamax, hd, hfind],
          htt, ?_, ?_, ?_⟩ <;>
          first
            | exact fun h => ⟨by omega, by omega⟩
            | exact fun h1 h2 => by omega
      | none =>
        have hnw : ∀ m ∈ g.possible_moves p, g.is_winning_move p m = false := by
          intro m hm
          simpa using List.find?_eq_none.mp hfind m hm
        have hne := hV.nonempty p hI hdf
        have hbell := hV.bellman p hI hdf hnw
        have hle : ∀ m ∈ g.possible_moves p,
            -(val ((g.make_move p m).1)) ≤ val p := by
          intro m hm
          rw [hbell]
          exact le_listMax (List.mem_map_of_mem _ hm)
        have hF : ∀ a : Int,
            loopMax (fun m => -(val ((g.make_move p m).1))) (g.possible_moves p) a
              = max a (val p) := by
          intro a
          rw [loopMax_eq_max _ _ _ hne, ← hbell]
        have hrec : ∀ m ∈ g.possible_moves p, ∀ tt' a b, TTSound I val tt' →
            a < b → NSpec I val ((g.make_move p m).1) a b
              (negamax g fuel ((g.make_move p m).1) tt' a b) := by
          intro m hm tt' a b htt' hab'
          have hmc := hT.inc p m hI hm
          exact ih ((g.make_move p m).1) tt' a b (hT.closed p m hI hdf hnw hm)
            htt' hab' (by omega)
        have hvmax : val p ≤ g.max_score p := (hV.score_bounds p hI).2
        have hbs : Bsound val p ((ttGet tt p).getD (TTScore.UpperBound (g.max_score p))) := by
          cases hget : ttGet tt p with
          | none => simpa [Bsound] using hvmax
          | some b => simpa using htt p hI b hget
        cases hbnd : (ttGet tt p).getD (TTScore.UpperBound (g.max_score p)) with
        | UpperBound mx =>
          rw [hbnd] at hbs
          have hmx : val p ≤ mx := hbs
          by_cases h1 : beta > mx
          · by_cases h2 : alpha ≥ mx
            · refine ⟨mx, tt, by simp [negamax, hd, hfind, hbnd, h1, h2], htt,
                ?_, ?_, ?_⟩ <;>
                first
                  | exact fun h => ⟨by omega, by omega⟩
                  | exact fun h3 h4 => by omega
            · have hax : alpha < mx := by omega
              obtain ⟨r, tt', heq, hs, hF1, hF2⟩ :=
                negamaxLoop_spec p mx hrec hI hle (g.possible_moves p) tt alpha
                  true (fun _ hx => hx) htt hax (by rw [hF]; omega)
              rw [hF] at hF1 hF2
              refine ⟨r, tt', ?_, hs, ?_, ?_, ?_⟩
              · simp only [negamax, hd, hfind, hbnd]
                simp [h1, h2, heq]
              · intro h
                have := hF1 (by omega)
                exact ⟨by omega, by omega⟩
              · intro h
                omega
              · intro h3 h4
                rcases lt_or_ge (max alpha (val p)) mx with hlt | hge
                · have := hF1 hlt
                  omega
                · have := hF2 hge
                  omega
          · obtain ⟨r, tt', heq, hs, hF1, hF2⟩ :=
              negamaxLoop_spec p beta hrec hI hle (g.possible_moves p) tt alpha
                true (fun _ hx => hx) htt hab (by rw [hF]; omega)
            rw [hF] at hF1 hF2
            refine ⟨r, tt', ?_, hs, ?_, ?_, ?_⟩
            · simp only [negamax, hd, hfind, hbnd]
              simp [h1, heq]
            · intro h
              have := hF1 (by omega)
              exact ⟨by omega, by omega⟩
            · intro h
              have := hF2 (by omega)
              exact ⟨by omega, by omega⟩
            · intro h3 h4
              have := hF1 (by omega)
              omega
        | LowerBound mn =>
          rw [hbnd] at hbs
          have hmn : mn ≤ val p := hbs
          by_cases h1 : alpha < mn
          · by_cases h2 : mn ≥ beta
            · refine ⟨mn, tt, by simp [negamax, hd, hfind, hbnd, h1, h2], htt,
                ?_, ?_, ?_⟩ <;>
                first
                  | exact fun h => ⟨by omega, by omega⟩
                  | exact fun h3 h4 => by omega
            · have hmb : mn < beta := by omega
              obtain ⟨r, tt', heq, hs, hF1, hF2⟩ :=
                negamaxLoop_spec p beta hrec hI hle (g.possible_moves p) tt mn
                  true (fun _ hx => hx) htt hmb (by rw [hF]; omega)
              rw [hF] at hF1 hF2
              have hFv : max mn (val p) = val p := by omega
              rw [hFv] at hF1 hF2
              refine ⟨r, tt', ?_, hs, ?_, ?_, ?_⟩
              · simp only [negamax, hd, hfind, hbnd]
                simp [h1, h2, heq]
              · intro h
                omega
              · intro h
                have := hF2 (by omega)
                exact ⟨by omega, by omega⟩
              · intro h3 h4
                have := hF1 (by omega)
                omega
          · obtain ⟨r, tt', heq, hs, hF1, hF2⟩ :=
              negamaxLoop_spec p beta hrec hI hle (g.possible_moves p) tt alpha
                true (fun _ hx => hx) htt hab (by rw [hF]; omega)
            rw [hF] at hF1 hF2
            refine ⟨r, tt', ?_, hs, ?_, ?_, ?_⟩
            · simp only [negamax, hd, hfind, hbnd]
              simp [h1, heq]
            · intro h
              have := hF1 (by omega)
              exact ⟨by omega, by omega⟩
            · intro h
              have := hF2 (by omega)
              exact ⟨by omega, by omega⟩
            · intro h3 h4
              have := hF1 (by omega)
              omega

theorem solveLoop_spec [DecidableEq Pos] (g : GameIF Pos M) (I : Pos → Prop)
    (val : Pos → Int) (N : Nat) (hT : Terminating g I N) (hV : Valid g I val)
    (fuel : Nat) (p : Pos) (hI : I p) (hfuel : N < fuel + g.move_count p) :
    ∀ k : Nat, ∀ tt alpha beta, (beta - alpha).toNat ≤ k →
      TTSound I val tt → alpha ≤ val p → val p ≤ beta →
      ∃ tt', solveLoop g fuel p tt alpha beta = some (val p, tt') ∧
        TTSound I val tt'
  := by
  intro k
  induction k with
  | zero =>
    intro tt alpha beta hk htt hav hvb
    have hba : ¬ alpha < beta := by omega
    rw [solveLoop, dif_neg hba]
    exact ⟨tt, by have : alpha = val p := by omega
                  rw [this], htt⟩
  | succ k ihk =>
    intro tt alpha beta hk htt hav hvb
    by_cases hab : alpha < beta
    · have htd : Int.tdiv (beta - alpha) 2 = (beta - alpha) / 2 :=
        Int.tdiv_eq_ediv (by omega) (by omega)
      have hmed1 : alpha ≤ alpha + Int.tdiv (beta - alpha) 2 := by
        rw [htd]; omega
      have hmed2 : alpha + Int.tdiv (beta - alpha) 2 < beta := by
        rw [htd]; omega
      obtain ⟨r, tt1, heqN, hs1, hA, hB, hC⟩ :=
        negamax_spec g I val N hT hV fuel p tt
          (alpha + Int.tdiv (beta - alpha) 2)
          (alpha + Int.tdiv (beta - alpha) 2 + 1)
          hI htt (by omega) hfuel
      rw [solveLoop, dif_pos hab]
      simp only [heqN]
      by_cases hr : r ≤ alpha + Int.tdiv (beta - alpha) 2
      · -- the null-window search failed low: the value is at most med
        have hvmed : val p ≤ alpha + Int.tdiv (beta - alpha) 2 := by
          by_contra hgt
          have := hB (by omega)
          omega
        have hvr := hA hvmed
        rw [dif_pos hr]
        exact ihk tt1 alpha r (by rw [htd] at hr; omega) hs1 hav (by omega)
      · -- failed high: the value is at least med + 1
        have hvmed : alpha + Int.tdiv (beta - alpha) 2 + 1 ≤ val p := by
          by_contra hlt
          have := hA (by omega)
          omega
        have hvr := hB (by omega)
        rw [dif_neg hr]
        exact ihk tt1 r beta (by rw [htd] at hr; omega) hs1 (by omega) hvb
    · rw [solveLoop, dif_neg hab]
      exact ⟨tt, by have : alpha = val p := by omega
                    rw [this], htt⟩

theorem solve_spec [DecidableEq Pos] (g : GameIF Pos M) (I : Pos → Prop)
    (val : Pos → Int) (N : Nat) (hT : Terminating g I N) (hV : Valid g I val)
    (fuel : Nat) (p : Pos) (tt : TT Pos) (hI : I p) (htt : TTSound I val tt)
    (hfuel : N < fuel + g.move_count p) :
    ∃ tt', solve g fuel p tt = some (val p, tt') ∧ TTSound I val tt' := by
  have hb := hV.score_bounds p hI
  exact solveLoop_spec g I val N hT hV fuel p hI hfuel
    (g.max_score p + 1 - g.min_score p).toNat tt (g.min_score p)
    (g.max_score p + 1) (by omega) htt hb.1 (by omega)

theorem val_forced {g : GameIF Pos M} {I : Pos → Prop} {val : Pos → Int}
    {N : Nat} (hT : Terminating g I N) (hV : Valid g I val) :
    ∀ k : Nat, ∀ p, I p → N ≤ k + g.move_count p →
      (0 < val p → Forced g true p) ∧ (val p < 0 → Forced g false p) := by
  intro k
  induction k with
  | zero =>
    intro p hI hk
    by_cases hd : g.is_draw p
    · have := hV.draw_val p hI hd
      exact ⟨fun h => absurd h (by omega), fun h => absurd h (by omega)⟩
    · have hdf : g.is_draw p = false := by simpa using hd
      by_cases hw : ∃ m ∈ g.possible_moves p, g.is_winning_move p m = true
      · obtain ⟨m, hm, hwm⟩ := hw
        have hv := hV.win_val p m hI hm hwm
        exact ⟨fun _ => Forced.immediate p m hdf hm hwm,
          fun h => absurd h (by omega)⟩
      · have hnw : ∀ m ∈ g.possible_moves p, g.is_winning_move p m = false := by
          intro m hm
          by_contra hc
          exact hw ⟨m, hm, by simpa using hc⟩
        obtain ⟨m, hm⟩ := List.exists_mem_of_ne_nil _ (hV.nonempty p hI hdf)
        have hIc := hT.closed p m hI hdf hnw hm
        have h1 := hT.bound ((g.make_move p m).1) hIc
        have h2 := hT.inc p m hI hm
        omega
  | succ k ihk =>
    intro p hI hk
    by_cases hd : g.is_draw p
    · have := hV.draw_val p hI hd
      exact ⟨fun h => absurd h (by omega), fun h => absurd h (by omega)⟩
    · have hdf : g.is_draw p = false := by simpa using hd
      by_cases hw : ∃ m ∈ g.possible_moves p, g.is_winning_move p m = true
      · obtain ⟨m, hm, hwm⟩ := hw
        have hv := hV.win_val p m hI hm hwm
        exact ⟨fun _ => Forced.immediate p m hdf hm hwm,
          fun h => absurd h (by omega)⟩
      · have hnw : ∀ m ∈ g.possible_moves p, g.is_winning_move p m = false := by
          intro m hm
          by_contra hc
          exact hw ⟨m, hm, by simpa using hc⟩
        have hne := hV.nonempty p hI hdf
        have hbell := hV.bellman p hI hdf hnw
        have hchild : ∀ m ∈ g.possible_moves p, I ((g.make_move p m).1) ∧
            N ≤ k + g.move_count ((g.make_move p m).1) := by
          intro m hm
          have h2 := hT.inc p m hI hm
          exact ⟨hT.closed p m hI hdf hnw hm, by omega⟩
        constructor
        · intro hpos
          have hmem : listMax ((g.possible_moves p).map
              (fun m => -val (g.make_move p m).1)) ∈
              (g.possible_moves p).map (fun m => -val (g.make_move p m).1) :=
            listMax_mem (by simpa using hne)
          obtain ⟨m, hm, hfm⟩ := List.mem_map.mp hmem
          have hvc : val ((g.make_move p m).1) < 0 := by omega
          have := (ihk ((g.make_move p m).1) (hchild m hm).1 (hchild m hm).2).2 hvc
          exact Forced.step p m hdf hm this
        · intro hneg
          refine Forced.lost p hdf hne hnw ?_
          intro m hm
          have hmm : -val ((g.make_move p m).1) ≤ val p := by
            rw [hbell]
            exact le_listMax (List.mem_map_of_mem _ hm)
          exact (ihk ((g.make_move p m).1) (hchild m hm).1 (hchild m hm).2).1
            (by omega)

theorem forced_val {g : GameIF Pos M} {I : Pos → Prop} {val : Pos → Int}
    {N : Nat} (hT : Terminating g I N) (hV : Valid g I val) :
    ∀ {b : Bool} {p : Pos}, Forced g b p → I p →
      (if b then 0 < val p else val p < 0) := by
  intro b p h
  induction h with
  | immediate p m hdf hm hwm =>
    intro hI
    have hv := hV.win_val p m hI hm hwm
    simp only [if_true]
    omega
  | step p m hdf hm _hFL ih =>
    intro hI
    simp only [if_true]
    by_cases hw : ∃ m' ∈ g.possible_moves p, g.is_winning_move p m' = true
    · obtain ⟨m', hm', hwm'⟩ := hw
      have hv := hV.win_val p m' hI hm' hwm'
      omega
    · have hnw : ∀ m' ∈ g.possible_moves p, g.is_winning_move p m' = false := by
        intro m' hm'
        by_contra hc
        exact hw ⟨m', hm', by simpa using hc⟩
      have hIc := hT.closed p m hI hdf hnw hm
      have hvc := ih hIc
      simp only [Bool.false_eq_true, if_false] at hvc
      have hbell := hV.bellman p hI hdf hnw
      have hmm : -val ((g.make_move p m).1) ≤ val p := by
        rw [hbell]
        exact le_listMax (List.mem_map_of_mem _ hm)
      omega
  | lost p hdf hne hnw _hall ih =>
    intro hI
    simp only [Bool.false_eq_true, if_false]
    have hbell := hV.bellman p hI hdf hnw
    have hlt : listMax ((g.possible_moves p).map
        (fun m => -val (g.make_move p m).1)) < 0 := by
      refine listMax_lt (by simpa using hne) ?_
      intro x hx
      obtain ⟨m, hm, hfm⟩ := List.mem_map.mp hx
      have hc := ih m hm (hT.closed p m hI hdf hnw hm)
      simp only [if_true] at hc
      omega
    omega

/-- Sign characterization of the value function on the invariant region:
positive iff the player to move can force a win, negative iff they are lost,
zero iff neither. -/
theorem val_sign_iff {g : GameIF Pos M} {I : Pos → Prop} {val : Pos → Int}
    {N : Nat} (hT : Terminating g I N) (hV : Valid g I val) (p : Pos)
    (hI : I p) :
    (0 < val p ↔ Forced g true p) ∧ (val p < 0 ↔ Forced g false p) ∧
    (val p = 0 ↔ ¬ Forced g true p ∧ ¬ Forced g false p) := by
  have hfw : Forced g true p → 0 < val p := by
    intro h
    have := forced_val hT hV h hI
    simpa using this
  have hfl : Forced g false p → val p < 0 := by
    intro h
    have := forced_val hT hV h hI
    simpa using this
  have hk := val_forced hT hV N p hI (by omega)
  refine ⟨⟨hk.1, hfw⟩, ⟨hk.2, hfl⟩, ?_, ?_⟩
  · intro h0
    exact ⟨fun h => by have := hfw h; omega, fun h => by have := hfl h; omega⟩
  · intro ⟨h1, h2⟩
    rcases lt_trichotomy (val p) 0 with h | h | h
    · exact absurd (hk.2 h) h2
    · exact h
    · exact absurd (hk.1 h) h1

theorem evalChild_total {rec : Pos → TT Pos → Int → Int → Option (Int × TT Pos)}
    {board : Pos} (h : ∀ tt a b, (rec board tt a b).isSome) :
    ∀ tt alpha beta first, (evalChild rec board tt alpha beta first).isSome := by
  intro tt alpha beta first
  cases first
  · cases heq : rec board tt (-alpha - 1) (-alpha) with
    | none => exact absurd (h tt (-alpha - 1) (-alpha)) (by simp [heq])
    | some x =>
      obtain ⟨r, tt1⟩ := x
      by_cases hp : -r > alpha
      · cases heq2 : rec board tt1 (-beta) (-alpha) with
        | none => exact absurd (h tt1 (-beta) (-alpha)) (by simp [heq2])
        | some y =>
          obtain ⟨r2, tt2⟩ := y
          simp [evalChild, heq, heq2, hp]
      · simp [evalChild, heq, hp]
  · cases heq : rec board tt (-beta) (-alpha) with
    | none => exact absurd (h tt (-beta) (-alpha)) (by simp [heq])
    | some x =>
      obtain ⟨r, tt1⟩ := x
      simp [evalChild, heq]

theorem negamaxLoop_total {g : GameIF Pos M} {p : Pos}
    {rec : Pos → TT Pos → Int → Int → Option (Int × TT Pos)} :
    ∀ ms : List M,
      (∀ m ∈ ms, ∀ tt a b, (rec ((g.make_move p m).1) tt a b).isSome) →
      ∀ tt alpha beta first, (negamaxLoop g p rec ms tt alpha beta first).isSome := by
  intro ms
  induction ms with
  | nil =>
    intro _ tt alpha beta first
    simp [negamaxLoop]
  | cons m ms ih =>
    intro hrec tt alpha beta first
    have h1 := evalChild_total (hrec m (List.mem_cons_self m ms)) tt alpha beta first
    cases heq : evalChild rec ((g.make_move p m).1) tt alpha beta first with
    | none => exact absurd h1 (by simp [heq])
    | some x =>
      obtain ⟨s, tt1⟩ := x
      by_cases hsb : s ≥ beta
      · simp [negamaxLoop, heq, hsb]
      · have := ih (fun m' hm' => hrec m' (List.mem_cons_of_mem m hm')) tt1
          (if s > alpha then s else alpha) beta false
        simpa [negamaxLoop, heq, hsb] using this

theorem negamax_total {g : GameIF Pos M} [DecidableEq Pos] {I : Pos → Prop}
    {N : Nat} (hT : Terminating g I N) :
    ∀ fuel p tt alpha beta, I p → N < fuel + g.move_count p →
      (negamax g fuel p tt alpha beta).isSome := by
  intro fuel
  induction fuel with
  | zero =>
    intro p tt alpha beta hI hfuel
    exact absurd (hT.bound p hI) (by omega)
  | succ fuel ih =>
    intro p tt alpha beta hI hfuel
    by_cases hd : g.is_draw p
    · simp [negamax, hd]
    · have hdf : g.is_draw p = false := by simpa using hd
      cases hfind : List.find? (fun m => g.is_winning_move p m) (g.possible_moves p) with
      | some m => simp [negamax, hd, hfind]
      | none =>
        have hnw : ∀ m ∈ g.possible_moves p, g.is_winning_move p m = false := by
          intro m hm
          simpa using List.find?_eq_none.mp hfind m hm
        have hrec : ∀ m ∈ g.possible_moves p, ∀ tt' a b,
            (negamax g fuel ((g.make_move p m).1) tt' a b).isSome := by
          intro m hm tt' a b
          have h2 := hT.inc p m hI hm
          exact ih ((g.make_move p m).1) tt' a b (hT.closed p m hI hdf hnw hm)
            (by omega)
        cases hbnd : (ttGet tt p).getD (TTScore.UpperBound (g.max_score p)) with
        | UpperBound mx =>
          by_cases h1 : beta > mx
          · by_cases h2 : alpha ≥ mx
            · simp [negamax, hd, hfind, hbnd, h1, h2]
            · have := negamaxLoop_total (g.possible_moves p) hrec tt alpha mx true
              simpa [negamax, hd, hfind, hbnd, h1, h2] using this
          · have := negamaxLoop_total (g.possible_moves p) hrec tt alpha beta true
            simpa [negamax, hd, hfind, hbnd, h1] using this
        | LowerBound mn =>
          by_cases h1 : alpha < mn
          · by_cases h2 : mn ≥ beta
            · simp [negamax, hd, hfind, hbnd, h1, h2]
            · have := negamaxLoop_total (g.possible_moves p) hrec tt mn beta true
              simpa [negamax, hd, hfind, hbnd, h1, h2] using this
          · have := negamaxLoop_total (g.possible_moves p) hrec tt alpha beta true
            simpa [negamax, hd, hfind, hbnd, h1] using this

theorem solveLoop_total {g : GameIF Pos M} [DecidableEq Pos] {I : Pos → Prop}
    {N : Nat} (hT : Terminating g I N) (fuel : Nat) (p : Pos) (hI : I p)
    (hfuel : N < fuel + g.move_count p) :
    ∀ k : Nat, ∀ tt alpha beta, (beta - alpha).toNat ≤ k →
      (solveLoop g fuel p tt alpha beta).isSome := by
  intro k
  induction k with
  | zero =>
    intro tt alpha beta hk
    rw [solveLoop, dif_neg (by omega)]
    simp
  | succ k ihk =>
    intro tt alpha beta hk
    by_cases hab : alpha < beta
    · have htd : Int.tdiv (beta - alpha) 2 = (beta - alpha) / 2 :=
        Int.tdiv_eq_ediv (by omega) (by omega)
      have h1 := negamax_total hT fuel p tt (alpha + Int.tdiv (beta - alpha) 2)
        (alpha + Int.tdiv (beta - alpha) 2 + 1) hI hfuel
      rw [solveLoop, dif_pos hab]
      cases heq : negamax g fuel p tt (alpha + Int.tdiv (beta - alpha) 2)
          (alpha + Int.tdiv (beta - alpha) 2 + 1) with
      | none => exact absurd h1 (by simp [heq])
      | some x =>
        obtain ⟨r, tt1⟩ := x
        simp only [heq]
        by_cases hr : r ≤ alpha + Int.tdiv (beta - alpha) 2
        · rw [dif_pos hr]
          exact ihk tt1 alpha r (by rw [htd] at hr; omega)
        · rw [dif_neg hr]
          exact ihk tt1 r beta (by rw [htd] at hr; omega)
    · rw [solveLoop, dif_neg hab]
      simp

theorem solve_total {g : GameIF Pos M} [DecidableEq Pos] {I : Pos → Prop}
    {N : Nat} (hT : Terminating g I N) (fuel : Nat) (p : Pos) (tt : TT Pos)
    (hI : I p) (hfuel : N < fuel + g.move_count p) :
    (solve g fuel p tt).isSome :=
  solveLoop_total hT fuel p hI hfuel
    (g.max_score p + 1 - g.min_score p).toNat tt (g.min_score p)
    (g.max_score p + 1) (by omega)

theorem TTSound_nil [DecidableEq Pos] (I : Pos → Prop) (val : Pos → Int) :
    TTSound I val ([] : TT Pos) := by
  intro p _ b hb
  simp [ttGet] at hb

theorem move_scoresAux_spec [DecidableEq Pos] (g : GameIF Pos M)
    (I : Pos → Prop) (val : Pos → Int) (N : Nat) (hT : Terminating g I N)
    (hV : Valid g I val) (fuel : Nat) (p : Pos) (hfuel : N < fuel) :
    ∀ ms tt, (∀ m ∈ ms, I ((g.make_move p m).1)) → TTSound I val tt →
      ∃ tt', move_scoresAux g fuel p ms tt =
        some (ms.map (fun m => (m, -(val ((g.make_move p m).1)))), tt') ∧
        TTSound I val tt' := by
  intro ms
  induction ms with
  | nil =>
    intro tt _ htt
    exact ⟨tt, rfl, htt⟩
  | cons m ms ih =>
    intro tt hAll htt
    obtain ⟨tt1, heq1, hs1⟩ := solve_spec g I val N hT hV fuel
      ((g.make_move p m).1) tt (hAll m (List.mem_cons_self m ms)) htt (by omega)
    obtain ⟨tt2, heq2, hs2⟩ := ih tt1
      (fun m' hm' => hAll m' (List.mem_cons_of_mem m hm')) hs1
    refine ⟨tt2, ?_, hs2⟩
    simp [move_scoresAux, heq1, heq2]

theorem par_move_scoresAux_spec [DecidableEq Pos] (g : GameIF Pos M)
    (I : Pos → Prop) (val : Pos → Int) (N : Nat) (hT : Terminating g I N)
    (hV : Valid g I val) (fuel : Nat) (p : Pos) (hfuel : N < fuel) :
    ∀ ms i (tts : Nat → TT Pos), (∀ m ∈ ms, I ((g.make_move p m).1)) →
      (∀ j, TTSound I val (tts j)) →
      par_move_scoresAux g fuel p ms i tts =
        some (ms.map (fun m => (m, -(val ((g.make_move p m).1))))) := by
  intro ms
  induction ms with
  | nil =>
    intro i tts _ _
    rfl
  | cons m ms ih =>
    intro i tts hAll htts
    obtain ⟨tt1, heq1, _⟩ := solve_spec g I val N hT hV fuel
      ((g.make_move p m).1) (tts i) (hAll m (List.mem_cons_self m ms))
      (htts i) (by omega)
    have heq2 := ih (i + 1) tts
      (fun m' hm' => hAll m' (List.mem_cons_of_mem m hm')) htts
    simp [par_move_scoresAux, heq1, heq2]

theorem usizeToIsize_small (n : Nat) (h : (n : Int) < 2 ^ 63) :
    usizeToIsize n = n := by
  have h1 : n < 2 ^ 64 := by omega
  have h2 : n % 2 ^ 64 = n := Nat.mod_eq_of_lt h1
  simp only [usizeToIsize, h2]
  rw [if_pos (by omega)]

theorem isizeToUsize_small (x : Int) (h0 : 0 ≤ x) (h1 : x < 2 ^ 64) :
    (isizeToUsize x : Int) = x := by
  simp only [isizeToUsize]
  omega

theorem upper_bound_range (g : GameT Pos M P E) (p : Pos)
    (hfit : ∀ mx, g.max_moves p = some mx → (mx : Int) < 2 ^ 63) :
    0 ≤ upper_bound g p ∧ upper_bound g p < 2 ^ 63 := by
  unfold upper_bound
  cases hmm : g.max_moves p with
  | none => simp [isizeMAX]
  | some mx =>
    show 0 ≤ usizeToIsize mx ∧ usizeToIsize mx < 2 ^ 63
    rw [usizeToIsize_small mx (hfit mx hmm)]
    have := hfit mx hmm
    omega

theorem firgAux_win [DecidableEq P] (g : GameT Pos M P E) (p : Pos) :
    ∀ ms (best : Option Pos),
      (∀ m ∈ ms, ∃ c, g.make_move p m = Except.ok c) →
      (∃ m ∈ ms, ∃ c, g.make_move p m = Except.ok c ∧
        g.state c = GameState.Win (g.turn (g.player p))) →
      ∃ c, firgAux g p ms best = Except.ok (some c) ∧
        g.state c = GameState.Win (g.turn (g.player p)) ∧
        ∃ m ∈ ms, g.make_move p m = Except.ok c := by
  intro ms
  induction ms with
  | nil =>
    intro best _ h
    simp at h
  | cons m ms ih =>
    intro best hok hex
    obtain ⟨c, hmk⟩ := hok m (List.mem_cons_self m ms)
    have hok' : ∀ m' ∈ ms, ∃ c', g.make_move p m' = Except.ok c' :=
      fun m' hm' => hok m' (List.mem_cons_of_mem m hm')
    have hlift : ∀ c', (∃ m' ∈ ms, g.make_move p m' = Except.ok c') →
        ∃ m' ∈ m :: ms, g.make_move p m' = Except.ok c' := by
      intro c' ⟨m', hm', hh⟩
      exact ⟨m', List.mem_cons_of_mem m hm', hh⟩
    have htail : g.state c ≠ GameState.Win (g.turn (g.player p)) →
        ∃ m' ∈ ms, ∃ c', g.make_move p m' = Except.ok c' ∧
          g.state c' = GameState.Win (g.turn (g.player p)) := by
      intro hne
      obtain ⟨m', hm', c', hmk', hst'⟩ := hex
      rcases List.mem_cons.mp hm' with rfl | hm'
      · rw [hmk] at hmk'
        cases hmk'
        exact absurd hst' hne
      · exact ⟨m', hm', c', hmk', hst'⟩
    cases hst : g.state c with
    | Playable =>
      obtain ⟨c', h1, h2, h3⟩ := ih best hok' (htail (by simp [hst]))
      exact ⟨c', by simp [firgAux, hmk, hst, h1], h2, hlift c' h3⟩
    | Tie =>
      obtain ⟨c', h1, h2, h3⟩ := ih (some c) hok' (htail (by simp [hst]))
      exact ⟨c', by simp [firgAux, hmk, hst, h1], h2, hlift c' h3⟩
    | Win w =>
      by_cases hw : w = g.turn (g.player p)
      · subst hw
        exact ⟨c, by simp [firgAux, hmk, hst], hst,
          ⟨m, List.mem_cons_self m ms, hmk⟩⟩
      · have hex' := htail (by simp [hst]; exact fun hc => hw hc)
        by_cases hb : best.isNone
        · obtain ⟨c', h1, h2, h3⟩ := ih (some c) hok' hex'
          exact ⟨c', by simp [firgAux, hmk, hst, hw, hb, h1], h2, hlift c' h3⟩
        · obtain ⟨c', h1, h2, h3⟩ := ih best hok' hex'
          exact ⟨c', by simp [firgAux, hmk, hst, hw, hb, h1], h2, hlift c' h3⟩

theorem firgAux_tie [DecidableEq P] (g : GameT Pos M P E) (p : Pos) :
    ∀ ms (best : Option Pos),
      (∀ m ∈ ms, ∃ c, g.make_move p m = Except.ok c) →
      (∀ m ∈ ms, ∀ c, g.make_move p m = Except.ok c →
        g.state c ≠ GameState.Win (g.turn (g.player p))) →
      ((∃ m ∈ ms, ∃ c, g.make_move p m = Except.ok c ∧
          g.state c = GameState.Tie) ∨
        (∃ c0, best = some c0 ∧ g.state c0 = GameState.Tie)) →
      ∃ c, firgAux g p ms best = Except.ok (some c) ∧
        g.state c = GameState.Tie ∧
        ((∃ m ∈ ms, g.make_move p m = Except.ok c) ∨ best = some c) := by
  intro ms
  induction ms with
  | nil =>
    intro best _ _ hd
    rcases hd with h | ⟨c0, rfl, hst⟩
    · simp at h
    · exact ⟨c0, rfl, hst, Or.inr rfl⟩
  | cons m ms ih =>
    intro best hok hnw hd
    obtain ⟨c, hmk⟩ := hok m (List.mem_cons_self m ms)
    have hok' : ∀ m' ∈ ms, ∃ c', g.make_move p m' = Except.ok c' :=
      fun m' hm' => hok m' (List.mem_cons_of_mem m hm')
    have hnw' : ∀ m' ∈ ms, ∀ c', g.make_move p m' = Except.ok c' →
        g.state c' ≠ GameState.Win (g.turn (g.player p)) :=
      fun m' hm' => hnw m' (List.mem_cons_of_mem m hm')
    have htail : g.state c ≠ GameState.Tie →
        (∃ m' ∈ m :: ms, ∃ c', g.make_move p m' = Except.ok c' ∧
          g.state c' = GameState.Tie) →
        ∃ m' ∈ ms, ∃ c', g.make_move p m' = Except.ok c' ∧
          g.state c' = GameState.Tie := by
      intro hne ⟨m', hm', c', hmk', hst'⟩
      rcases List.mem_cons.mp hm' with rfl | hm'
      · rw [hmk] at hmk'
        cases hmk'
        exact absurd hst' hne
      · exact ⟨m', hm', c', hmk', hst'⟩
    have hres : ∀ c' : Pos,
        ((∃ m' ∈ ms, g.make_move p m' = Except.ok c') ∨ best = some c') →
        (∃ m' ∈ m :: ms, g.make_move p m' = Except.ok c') ∨ best = some c' := by
      intro c' h
      rcases h with ⟨m', hm', hh⟩ | hh
      · exact Or.inl ⟨m', List.mem_cons_of_mem m hm', hh⟩
      · exact Or.inr hh
    cases hst : g.state c with
    | Playable =>
      have hd' : (∃ m' ∈ ms, ∃ c', g.make_move p m' = Except.ok c' ∧
          g.state c' = GameState.Tie) ∨
          (∃ c0, best = some c0 ∧ g.state c0 = GameState.Tie) := by
        rcases hd with h | h
        · exact Or.inl (htail (by simp [hst]) h)
        · exact Or.inr h
      obtain ⟨c', h1, h2, h3⟩ := ih best hok' hnw' hd'
      exact ⟨c', by simp [firgAux, hmk, hst, h1], h2, hres c' h3⟩
    | Tie =>
      obtain ⟨c', h1, h2, h3⟩ := ih (some c) hok' hnw' (Or.inr ⟨c, rfl, hst⟩)
      refine ⟨c', by simp [firgAux, hmk, hst, h1], h2, ?_⟩
      rcases h3 with ⟨m', hm', hh⟩ | hh
      · exact Or.inl ⟨m', List.mem_cons_of_mem m hm', hh⟩
      · cases hh
        exact Or.inl ⟨m, List.mem_cons_self m ms, hmk⟩
    | Win w =>
      have hw : ¬ w = g.turn (g.player p) := by
        intro hc
        exact hnw m (List.mem_cons_self m ms) c hmk (by rw [hst, hc])
      by_cases hb : best.isNone
      · have hleft : ∃ m' ∈ ms, ∃ c', g.make_move p m' = Except.ok c' ∧
            g.state c' = GameState.Tie := by
          rcases hd with h | ⟨c0, hc0, _⟩
          · exact htail (by simp [hst]) h
          · rw [hc0] at hb
            simp at hb
        obtain ⟨c', h1, h2, h3⟩ := ih (some c) hok' hnw' (Or.inl hleft)
        refine ⟨c', by simp [firgAux, hmk, hst, hw, hb, h1], h2, ?_⟩
        rcases h3 with ⟨m', hm', hh⟩ | hh
        · exact Or.inl ⟨m', List.mem_cons_of_mem m hm', hh⟩
        · cases hh
          rw [hst] at h2
          cases h2
      · have hd' : (∃ m' ∈ ms, ∃ c', g.make_move p m' = Except.ok c' ∧
            g.state c' = GameState.Tie) ∨
            (∃ c0, best = some c0 ∧ g.state c0 = GameState.Tie) := by
          rcases hd with h | h
          · exact Or.inl (htail (by simp [hst]) h)
          · exact Or.inr h
        obtain ⟨c', h1, h2, h3⟩ := ih best hok' hnw' hd'
        exact ⟨c', by simp [firgAux, hmk, hst, hw, hb, h1], h2, hres c' h3⟩

theorem firgAux_opp [DecidableEq P] (g : GameT Pos M P E) (p : Pos) :
    ∀ ms (best : Option Pos),
      (∀ m ∈ ms, ∃ c, g.make_move p m = Except.ok c) →
      (∀ m ∈ ms, ∀ c, g.make_move p m = Except.ok c →
        g.state c ≠ GameState.Win (g.turn (g.player p))) →
      (∀ m ∈ ms, ∀ c, g.make_move p m = Except.ok c →
        g.state c ≠ GameState.Tie) →
      ((best = none ∧ ∃ m ∈ ms, ∃ c w, g.make_move p m = Except.ok c ∧
          g.state c = GameState.Win w ∧ w ≠ g.turn (g.player p)) ∨
        (∃ c0 w0, best = some c0 ∧ g.state c0 = GameState.Win w0 ∧
          w0 ≠ g.turn (g.player p))) →
      ∃ c w, firgAux g p ms best = Except.ok (some c) ∧
        g.state c = GameState.Win w ∧ w ≠ g.turn (g.player p) ∧
        ((∃ m ∈ ms, g.make_move p m = Except.ok c) ∨ best = some c) := by
  intro ms
  induction ms with
  | nil =>
    intro best _ _ _ hd
    rcases hd with ⟨_, h⟩ | ⟨c0, w0, rfl, hst, hw⟩
    · simp at h
    · exact ⟨c0, w0, rfl, hst, hw, Or.inr rfl⟩
  | cons m ms ih =>
    intro best hok hnw hnt hd
    obtain ⟨c, hmk⟩ := hok m (List.mem_cons_self m ms)
    have hok' : ∀ m' ∈ ms, ∃ c', g.make_move p m' = Except.ok c' :=
      fun m' hm' => hok m' (List.mem_cons_of_mem m hm')
    have hnw' : ∀ m' ∈ ms, ∀ c', g.make_move p m' = Except.ok c' →
        g.state c' ≠ GameState.Win (g.turn (g.player p)) :=
      fun m' hm' => hnw m' (List.mem_cons_of_mem m hm')
    have hnt' : ∀ m' ∈ ms, ∀ c', g.make_move p m' = Except.ok c' →
        g.state c' ≠ GameState.Tie :=
      fun m' hm' => hnt m' (List.mem_cons_of_mem m hm')
    have hres : ∀ c' : Pos,
        ((∃ m' ∈ ms, g.make_move p m' = Except.ok c') ∨ best = some c') →
        (∃ m' ∈ m :: ms, g.make_move p m' = Except.ok c') ∨ best = some c' := by
      intro c' h
      rcases h with ⟨m', hm', hh⟩ | hh
      · exact Or.inl ⟨m', List.mem_cons_of_mem m hm', hh⟩
      · exact Or.inr hh
    cases hst : g.state c with
    | Playable =>
      have hd' : (none = (none : Option Pos) ∧ ∃ m' ∈ ms, ∃ c' w',
          g.make_move p m' = Except.ok c' ∧ g.state c' = GameState.Win w' ∧
          w' ≠ g.turn (g.player p)) ∨
          (∃ c0 w0, best = some c0 ∧ g.state c0 = GameState.Win w0 ∧
            w0 ≠ g.turn (g.player p)) := by
        rcases hd with ⟨hb, m', hm', c', w', hmk', hst', hw'⟩ | h
        · rcases List.mem_cons.mp hm' with rfl | hm'
          · rw [hmk] at hmk'
            cases hmk'
            rw [hst] at hst'
            cases hst'
          · exact Or.inl ⟨rfl, m', hm', c', w', hmk', hst', hw'⟩
        · exact Or.inr h
      rcases hd with ⟨hb, _⟩ | hsome
      · subst hb
        obtain ⟨c', w', h1, h2, h3, h4⟩ := ih none hok' hnw' hnt'
          (by rcases hd' with h | ⟨c0, w0, hc0, _⟩
              · exact Or.inl h
              · cases hc0)
        exact ⟨c', w', by simp [firgAux, hmk, hst, h1], h2, h3, hres c' h4⟩
      · obtain ⟨c', w', h1, h2, h3, h4⟩ := ih best hok' hnw' hnt'
          (Or.inr hsome)
        exact ⟨c', w', by simp [firgAux, hmk, hst, h1], h2, h3, hres c' h4⟩
    | Tie =>
      exact absurd hst (hnt m (List.mem_cons_self m ms) c hmk)
    | Win w =>
      have hw : ¬ w = g.turn (g.player p) := by
        intro hc
        exact hnw m (List.mem_cons_self m ms) c hmk (by rw [hst, hc])
      by_cases hb : best.isNone
      · obtain ⟨c', w', h1, h2, h3, h4⟩ := ih (some c) hok' hnw' hnt'
          (Or.inr ⟨c, w, rfl, hst, hw⟩)
        refine ⟨c', w', by simp [firgAux, hmk, hst, hw, hb, h1], h2, h3, ?_⟩
        rcases h4 with ⟨m', hm', hh⟩ | hh
        · exact Or.inl ⟨m', List.mem_cons_of_mem m hm', hh⟩
        · cases hh
          exact Or.inl ⟨m, List.mem_cons_self m ms, hmk⟩
      · have hsome : ∃ c0 w0, best = some c0 ∧ g.state c0 = GameState.Win w0 ∧
            w0 ≠ g.turn (g.player p) := by
          rcases hd with ⟨hb', _⟩ | h
          · rw [hb'] at hb
            simp at hb
          · exact h
        obtain ⟨c', w', h1, h2, h3, h4⟩ := ih best hok' hnw' hnt' (Or.inr hsome)
        exact ⟨c', w', by simp [firgAux, hmk, hst, hw, hb, h1], h2, h3, hres c' h4⟩

theorem firgAux_playable [DecidableEq P] (g : GameT Pos M P E) (p : Pos) :
    ∀ ms (best : Option Pos),
      (∀ m ∈ ms, ∃ c, g.make_move p m = Except.ok c) →
      (∀ m ∈ ms, ∀ c, g.make_move p m = Except.ok c →
        g.state c = GameState.Playable) →
      firgAux g p ms best = Except.ok best := by
  intro ms
  induction ms with
  | nil =>
    intro best _ _
    rfl
  | cons m ms ih =>
    intro best hok hpl
    obtain ⟨c, hmk⟩ := hok m (List.mem_cons_self m ms)
    have hst := hpl m (List.mem_cons_self m ms) c hmk
    have := ih best (fun m' hm' => hok m' (List.mem_cons_of_mem m hm'))
      (fun m' hm' => hpl m' (List.mem_cons_of_mem m hm'))
    simp [firgAux, hmk, hst, this]

/-! Claim theorems. -/

/-- C1: for every game and position satisfying the engine's contract — the
termination hypotheses (`Terminating`) and the semantic hypotheses
(`Valid`) on an invariant region containing the position, with a sound
transposition table and enough fuel — `solve` terminates and returns the
exact game-theoretic value of the position from the perspective of the
player to move: positive iff that player can force a win, negative iff they
lose under optimal play, and zero iff optimal play ends in a tie (neither
side can force a win). -/
theorem C1_solve_exact [DecidableEq Pos] (g : GameIF Pos M) (I : Pos → Prop)
    (val : Pos → Int) (N fuel : Nat) (p : Pos) (tt : TT Pos)
    (hT : Terminating g I N) (hV : Valid g I val) (hI : I p)
    (htt : TTSound I val tt) (hfuel : N < fuel) :
    ∃ r tt', solve g fuel p tt = some (r, tt') ∧ r = val p ∧
      (0 < r ↔ Forced g true p) ∧ (r < 0 ↔ Forced g false p) ∧
      (r = 0 ↔ ¬ Forced g true p ∧ ¬ Forced g false p) := by
  obtain ⟨tt', heq, _⟩ := solve_spec g I val N hT hV fuel p tt hI htt (by omega)
  obtain ⟨h1, h2, h3⟩ := val_sign_iff hT hV p hI
  exact ⟨val p, tt', heq, rfl, h1, h2, h3⟩

/-- Witness for C1: the three-token position of the concrete subtraction
game, a forced loss for the player to move. -/
theorem C1_solve_exact_witness :
    Terminating nimGame nimI 3 ∧ Valid nimGame nimI nimVal ∧ nimI 3 ∧
    (∃ r tt', solve nimGame 4 3 [] = some (r, tt') ∧ r = nimVal 3 ∧
      (0 < r ↔ Forced nimGame true 3) ∧ (r < 0 ↔ Forced nimGame false 3) ∧
      (r = 0 ↔ ¬ Forced nimGame true 3 ∧ ¬ Forced nimGame false 3)) := by
  have hT : Terminating nimGame nimI 3 := ⟨by decide, by decide, by decide⟩
  have hV : Valid nimGame nimI nimVal :=
    ⟨by decide, by decide, by decide, by decide, by decide⟩
  exact ⟨hT, hV, by decide,
    C1_solve_exact nimGame nimI nimVal 3 4 3 [] hT hV (by decide)
      (TTSound_nil nimI nimVal) (by decide)⟩

/-- C2: evidence that the engine does not propagate move-application
failures.  In `errGame` every `make_move` reports a `MoveError` (its second
component is `true`), yet `negamax` produces a plain score, and `solve` and
`move_scores` complete with plain results — none of the entry points has an
error channel, so the failure raised while searching the only legal move is
silently discarded (src/src/lib.rs lines 36, 72, 145, 179 drop the
`Result` of `make_move`). -/
theorem C2_error_discarded :
    (errGame.make_move 0 0).2 = true ∧
    negamax errGame 2 0 [] (-10) 11
      = some (0, [((0 : Fin 2), TTScore.UpperBound 0)]) ∧
    (solve errGame 2 0 []).isSome ∧
    (∃ tt', move_scores errGame 2 0 [] = some ([((0 : Fin 1), 0)], tt')) := by
  have hT : Terminating errGame (fun _ => True) 1 :=
    ⟨by decide, by decide, by decide⟩
  have hV : Valid errGame (fun _ => True) (fun _ => 0) :=
    ⟨by decide, by decide, by decide, by decide, by decide⟩
  refine ⟨by decide, by decide,
    solve_total hT 2 0 [] trivial (by decide), ?_⟩
  obtain ⟨tt', heq, _⟩ := move_scoresAux_spec errGame (fun _ => True)
    (fun _ => 0) 1 hT hV 2 0 (by decide) (errGame.possible_moves 0) []
    (fun _ _ => trivial) (TTSound_nil _ _)
  exact ⟨tt', heq⟩

/-- C3 counterexample: on a beta cutoff the engine stores the child's
negated score, not `beta`.  With window `[0, 1]` on `cexGame`, `negamax`
returns `beta = 1` but the table entry written for the root is
`LowerBound 5`, not `LowerBound 1` as the claim states. -/
theorem C3_counterexample :
    negamax cexGame 2 0 [] 0 1
      = some (1, [((0 : Fin 3), TTScore.LowerBound 5)]) ∧
    TTScore.LowerBound (5 : Int) ≠ TTScore.LowerBound 1 :=
  ⟨by decide, by decide⟩

/-- C3 amended: in the move loop, whenever the current child's negated
score `s` satisfies `s ≥ beta`, the engine stores `LowerBound s` (the
fail-soft child score, which may exceed `beta`) for the current position
and returns `beta`, leaving the remaining children unexplored. -/
theorem C3_cutoff [DecidableEq Pos] (g : GameIF Pos M) (p : Pos)
    (rec : Pos → TT Pos → Int → Int → Option (Int × TT Pos)) (m : M)
    (ms : List M) (tt tt1 : TT Pos) (alpha beta s : Int) (first : Bool)
    (hEval : evalChild rec ((g.make_move p m).1) tt alpha beta first
      = some (s, tt1))
    (hs : s ≥ beta) :
    negamaxLoop g p rec (m :: ms) tt alpha beta first
      = some (beta, ttInsert tt1 p (TTScore.LowerBound s)) := by
  simp [negamaxLoop, hEval, hs]

/-- Witness for the amended C3 on the concrete cutoff of `cexGame`. -/
theorem C3_cutoff_witness :
    evalChild (negamax cexGame 1) ((cexGame.make_move 0 0).1) [] 0 1 true
      = some (5, []) ∧
    (5 : Int) ≥ 1 ∧
    negamaxLoop cexGame 0 (negamax cexGame 1) [0] [] 0 1 true
      = some (1, ttInsert [] 0 (TTScore.LowerBound 5)) :=
  ⟨by decide, by decide,
    C3_cutoff cexGame 0 (negamax cexGame 1) 0 [] [] [] 0 1 5 true (by decide)
      (by decide)⟩

/-- C4 counterexample: `negamax` on a drawn position with window `[1, 2]`
returns `0`, which lies strictly below `alpha = 1`, refuting the claim that
the returned value never lies below `alpha`. -/
theorem C4_counterexample :
    negamax drawGame 1 0 [] 1 2 = some (0, []) ∧ ¬ ((1 : Int) ≤ 0) :=
  ⟨by decide, by decide⟩

/-- C4 amended: under the engine contract, `negamax` returns the exact game
value whenever it lies strictly inside the window `(alpha, beta)`; when the
value is at most `alpha` the result lies between the value and `alpha`, and
when the value is at least `beta` the result lies between `beta` and the
value.  The result may therefore lie outside `[alpha, beta]` (for instance
`0` for a drawn position, whatever the window). -/
theorem C4_negamax_window [DecidableEq Pos] (g : GameIF Pos M)
    (I : Pos → Prop) (val : Pos → Int) (N fuel : Nat) (p : Pos) (tt : TT Pos)
    (alpha beta : Int) (hT : Terminating g I N) (hV : Valid g I val)
    (hI : I p) (htt : TTSound I val tt) (hab : alpha < beta)
    (hfuel : N < fuel + g.move_count p) :
    ∃ r tt', negamax g fuel p tt alpha beta = some (r, tt') ∧
      (alpha < val p → val p < beta → r = val p) ∧
      (val p ≤ alpha → val p ≤ r ∧ r ≤ alpha) ∧
      (beta ≤ val p → beta ≤ r ∧ r ≤ val p) := by
  obtain ⟨r, tt', heq, _, hA, hB, hC⟩ :=
    negamax_spec g I val N hT hV fuel p tt alpha beta hI htt hab hfuel
  exact ⟨r, tt', heq, hC, hA, hB⟩

/-- Witness for the amended C4 at the three-token subtraction-game
position with the full window. -/
theorem C4_negamax_window_witness :
    Terminating nimGame nimI 3 ∧ Valid nimGame nimI nimVal ∧
    ((-10 : Int) < 11) ∧
    (∃ r tt', negamax nimGame 4 3 [] (-10) 11 = some (r, tt') ∧
      ((-10 : Int) < nimVal 3 → nimVal 3 < 11 → r = nimVal 3) ∧
      (nimVal 3 ≤ -10 → nimVal 3 ≤ r ∧ r ≤ -10) ∧
      ((11 : Int) ≤ nimVal 3 → 11 ≤ r ∧ r ≤ nimVal 3)) := by
  have hT : Terminating nimGame nimI 3 := ⟨by decide, by decide, by decide⟩
  have hV : Valid nimGame nimI nimVal :=
    ⟨by decide, by decide, by decide, by decide, by decide⟩
  exact ⟨hT, hV, by decide,
    C4_negamax_window nimGame nimI nimVal 3 4 3 [] (-10) 11 hT hV (by decide)
      (TTSound_nil nimI nimVal) (by decide) (by decide)⟩

/-- C9: under the hypotheses that every move application strictly increases
`move_count` and that `move_count` is bounded by the finite `N` (the
game's `max_moves`), `negamax` terminates on every position of the
invariant region — fuel exceeding `N` is never exhausted — and hence
`solve` terminates as well. -/
theorem C9_termination [DecidableEq Pos] (g : GameIF Pos M) (I : Pos → Prop)
    (N fuel : Nat) (p : Pos) (tt : TT Pos) (alpha beta : Int)
    (hT : Terminating g I N) (hI : I p) (hfuel : N < fuel) :
    (negamax g fuel p tt alpha beta).isSome ∧ (solve g fuel p tt).isSome :=
  ⟨negamax_total hT fuel p tt alpha beta hI (by omega),
   solve_total hT fuel p tt hI (by omega)⟩

/-- Witness for C9 on the concrete subtraction game. -/
theorem C9_termination_witness :
    Terminating nimGame nimI 3 ∧ nimI 3 ∧ (3 < 4) ∧
    ((negamax nimGame 4 3 [] (-10) 11).isSome ∧
      (solve nimGame 4 3 []).isSome) := by
  have hT : Terminating nimGame nimI 3 := ⟨by decide, by decide, by decide⟩
  exact ⟨hT, by decide, by decide,
    C9_termination nimGame nimI 3 4 3 [] (-10) 11 hT (by decide) (by decide)⟩

/-- C5: for every position and every legal move at it (indexed by its place
in the move list), the score reported by `move_scores` for that move equals
the negation of `solve` applied to the child obtained by playing it, with
the same transposition table. -/
theorem C5_move_scores [DecidableEq Pos] (g : GameIF Pos M) (I : Pos → Prop)
    (val : Pos → Int) (N fuel : Nat) (p : Pos) (tt : TT Pos)
    (hT : Terminating g I N) (hV : Valid g I val)
    (hAll : ∀ m ∈ g.possible_moves p, I ((g.make_move p m).1))
    (htt : TTSound I val tt) (hfuel : N < fuel) :
    ∃ L tt', move_scores g fuel p tt = some (L, tt') ∧
      ∀ i, i < (g.possible_moves p).length →
        ∃ m v tt2, (g.possible_moves p)[i]? = some m ∧
          solve g fuel ((g.make_move p m).1) tt = some (v, tt2) ∧
          L[i]? = some (m, -v) := by
  obtain ⟨tt', heq, _⟩ := move_scoresAux_spec g I val N hT hV fuel p hfuel
    (g.possible_moves p) tt hAll htt
  refine ⟨_, tt', heq, ?_⟩
  intro i hi
  have hm : (g.possible_moves p)[i]? = some ((g.possible_moves p)[i]) :=
    List.getElem?_eq_getElem hi
  have hmem : (g.possible_moves p)[i] ∈ g.possible_moves p :=
    List.getElem_mem hi
  obtain ⟨tt2, heq2, _⟩ := solve_spec g I val N hT hV fuel
    ((g.make_move p ((g.possible_moves p)[i])).1) tt (hAll _ hmem) htt
    (by omega)
  refine ⟨(g.possible_moves p)[i],
    val ((g.make_move p ((g.possible_moves p)[i])).1), tt2, hm, heq2, ?_⟩
  rw [List.getElem?_map, hm]
  rfl

/-- Witness for C5 at the three-token subtraction-game position, whose
children all lie in the invariant region. -/
theorem C5_move_scores_witness :
    Terminating nimGame nimI 3 ∧ Valid nimGame nimI nimVal ∧
    (∀ m ∈ nimGame.possible_moves 3, nimI ((nimGame.make_move 3 m).1)) ∧
    (∃ L tt', move_scores nimGame 4 3 [] = some (L, tt') ∧
      ∀ i, i < (nimGame.possible_moves 3).length →
        ∃ m v tt2, (nimGame.possible_moves 3)[i]? = some m ∧
          solve nimGame 4 ((nimGame.make_move 3 m).1) [] = some (v, tt2) ∧
          L[i]? = some (m, -v)) := by
  have hT : Terminating nimGame nimI 3 := ⟨by decide, by decide, by decide⟩
  have hV : Valid nimGame nimI nimVal :=
    ⟨by decide, by decide, by decide, by decide, by decide⟩
  exact ⟨hT, hV, by decide,
    C5_move_scores nimGame nimI nimVal 3 4 3 [] hT hV (by decide)
      (TTSound_nil nimI nimVal) (by decide)⟩

/-- C7: the list of (move, score) pairs produced by the parallel evaluator
equals the one produced by the sequential `move_scores` — for every family
`tts` of sound table states observed by the workers (modelling any thread
count and any interleaving of bound insertions into the shared table), and
in particular for the fresh shared table `par_move_scores` starts from. -/
theorem C7_par_eq_seq [DecidableEq Pos] (g : GameIF Pos M) (I : Pos → Prop)
    (val : Pos → Int) (N fuel : Nat) (p : Pos) (tt : TT Pos)
    (tts : Nat → TT Pos) (hT : Terminating g I N) (hV : Valid g I val)
    (hAll : ∀ m ∈ g.possible_moves p, I ((g.make_move p m).1))
    (htt : TTSound I val tt) (htts : ∀ j, TTSound I val (tts j))
    (hfuel : N < fuel) :
    ∃ L tt', move_scores g fuel p tt = some (L, tt') ∧
      par_move_scores_with_hasher g fuel p tts = some L ∧
      par_move_scores g fuel p = some L := by
  obtain ⟨tt', heq, _⟩ := move_scoresAux_spec g I val N hT hV fuel p hfuel
    (g.possible_moves p) tt hAll htt
  have h1 := par_move_scoresAux_spec g I val N hT hV fuel p hfuel
    (g.possible_moves p) 0 tts hAll htts
  have h2 := par_move_scoresAux_spec g I val N hT hV fuel p hfuel
    (g.possible_moves p) 0 (fun _ => []) hAll (fun _ => TTSound_nil I val)
  exact ⟨_, tt', heq, h1, h2⟩

/-- Witness for C7 at the three-token subtraction-game position, with an
arbitrary-looking family of sound worker tables (here all empty). -/
theorem C7_par_eq_seq_witness :
    Terminating nimGame nimI 3 ∧ Valid nimGame nimI nimVal ∧
    (∃ L tt', move_scores nimGame 4 3 [] = some (L, tt') ∧
      par_move_scores_with_hasher nimGame 4 3 (fun _ => []) = some L ∧
      par_move_scores nimGame 4 3 = some L) := by
  have hT : Terminating nimGame nimI 3 := ⟨by decide, by decide, by decide⟩
  have hV : Valid nimGame nimI nimVal :=
    ⟨by decide, by decide, by decide, by decide, by decide⟩
  exact ⟨hT, hV,
    C7_par_eq_seq nimGame nimI nimVal 3 4 3 [] (fun _ => []) hT hV (by decide)
      (TTSound_nil nimI nimVal) (fun _ => TTSound_nil nimI nimVal) (by decide)⟩

/-- C6: for every position and score reachable by the engine (the score's
magnitude bounded by `upper_bound - move_count`, and `max_moves` and
`move_count` within the 64-bit signed range), `score_to_outcome` yields the
stated non-negative distance — `Win (upper_bound - score - move_count)` for
positive scores, `Loss (upper_bound + score - move_count)` for negative
ones, `Tie` at zero — and the score is reconstructed from the outcome,
distance, `move_count` and `upper_bound`. -/
theorem C6_outcome_roundtrip (g : GameT Pos M P E) (p : Pos) (score : Int)
    (hfit : ∀ mx, g.max_moves p = some mx → (mx : Int) < 2 ^ 63)
    (hmc : (g.move_count p : Int) < 2 ^ 63)
    (hpos : 0 < score → score ≤ upper_bound g p - (g.move_count p : Int))
    (hneg : score < 0 → -score ≤ upper_bound g p - (g.move_count p : Int)) :
    (0 < score →
      score_to_outcome g p score = GameScoreOutcome.Win
        (upper_bound g p - score - (g.move_count p : Int)).toNat ∧
      0 ≤ upper_bound g p - score - (g.move_count p : Int) ∧
      score = upper_bound g p
        - ((upper_bound g p - score - (g.move_count p : Int)).toNat : Int)
        - (g.move_count p : Int)) ∧
    (score = 0 → score_to_outcome g p score = GameScoreOutcome.Tie) ∧
    (score < 0 →
      score_to_outcome g p score = GameScoreOutcome.Loss
        (score + upper_bound g p - (g.move_count p : Int)).toNat ∧
      0 ≤ score + upper_bound g p - (g.move_count p : Int) ∧
      score = ((score + upper_bound g p - (g.move_count p : Int)).toNat : Int)
        - upper_bound g p + (g.move_count p : Int)) := by
  have hub := upper_bound_range g p hfit
  have hmcc : usizeToIsize (g.move_count p) = (g.move_count p : Int) :=
    usizeToIsize_small _ hmc
  refine ⟨?_, ?_, ?_⟩
  · intro hsc
    have h1 := hpos hsc
    have harg : -score + upper_bound g p - usizeToIsize (g.move_count p)
        = upper_bound g p - score - (g.move_count p : Int) := by
      rw [hmcc]
      ring
    refine ⟨?_, by omega, by omega⟩
    simp only [score_to_outcome, if_pos hsc, harg]
    congr 1
    simp only [isizeToUsize]
    omega
  · intro h0
    simp only [score_to_outcome, if_neg (by omega : ¬ (0:Int) < score),
      if_pos h0]
  · intro hsc
    have h2 := hneg hsc
    have harg : score + upper_bound g p - usizeToIsize (g.move_count p)
        = score + upper_bound g p - (g.move_count p : Int) := by
      rw [hmcc]
    refine ⟨?_, by omega, by omega⟩
    simp only [score_to_outcome, if_neg (by omega : ¬ (0:Int) < score),
      if_neg (by omega : ¬ score = 0), harg]
    congr 1
    simp only [isizeToUsize]
    omega

/-- Witness for C6 on the richer-trait game with `max_moves = 5`,
`move_count = 1`, at score 2: outcome `Win 2`, and the round trip
reconstructs 2. -/
theorem C6_outcome_roundtrip_witness :
    (∀ mx, tinyT.max_moves 0 = some mx → (mx : Int) < 2 ^ 63) ∧
    ((0 : Int) < 2 →
      score_to_outcome tinyT 0 2 = GameScoreOutcome.Win
        (upper_bound tinyT 0 - 2 - (tinyT.move_count 0 : Int)).toNat ∧
      0 ≤ upper_bound tinyT 0 - 2 - (tinyT.move_count 0 : Int) ∧
      (2 : Int) = upper_bound tinyT 0
        - ((upper_bound tinyT 0 - 2 - (tinyT.move_count 0 : Int)).toNat : Int)
        - (tinyT.move_count 0 : Int)) := by
  have hfit : ∀ mx, tinyT.max_moves 0 = some mx → (mx : Int) < 2 ^ 63 := by
    intro mx h
    cases h
    decide
  exact ⟨hfit,
    (C6_outcome_roundtrip tinyT 0 2 hfit (by decide) (fun _ => by decide)
      (fun h => absurd h (by decide))).1⟩

/-- C8: the default `find_immediately_resolvable_game` performs a one-ply
lookahead and returns, in priority order: a child won by the mover (the
player who just moved, `turn` of the current player); failing that, some
tied child; failing that, some child won by the opponent; and `None` when
there are no legal moves or every child is still `Playable`.  Which child
of the winning class is returned is left unspecified. -/
theorem C8_firg [DecidableEq P] (g : GameT Pos M P E) (p : Pos)
    (hok : ∀ m ∈ g.possible_moves p, ∃ c, g.make_move p m = Except.ok c) :
    ((∃ m ∈ g.possible_moves p, ∃ c, g.make_move p m = Except.ok c ∧
        g.state c = GameState.Win (g.turn (g.player p))) →
      ∃ c, find_immediately_resolvable_game g p = Except.ok (some c) ∧
        g.state c = GameState.Win (g.turn (g.player p)) ∧
        ∃ m ∈ g.possible_moves p, g.make_move p m = Except.ok c) ∧
    ((∀ m ∈ g.possible_moves p, ∀ c, g.make_move p m = Except.ok c →
        g.state c ≠ GameState.Win (g.turn (g.player p))) →
      (∃ m ∈ g.possible_moves p, ∃ c, g.make_move p m = Except.ok c ∧
        g.state c = GameState.Tie) →
      ∃ c, find_immediately_resolvable_game g p = Except.ok (some c) ∧
        g.state c = GameState.Tie ∧
        ∃ m ∈ g.possible_moves p, g.make_move p m = Except.ok c) ∧
    ((∀ m ∈ g.possible_moves p, ∀ c, g.make_move p m = Except.ok c →
        g.state c ≠ GameState.Win (g.turn (g.player p))) →
      (∀ m ∈ g.possible_moves p, ∀ c, g.make_move p m = Except.ok c →
        g.state c ≠ GameState.Tie) →
      (∃ m ∈ g.possible_moves p, ∃ c w, g.make_move p m = Except.ok c ∧
        g.state c = GameState.Win w ∧ w ≠ g.turn (g.player p)) →
      ∃ c w, find_immediately_resolvable_game g p = Except.ok (some c) ∧
        g.state c = GameState.Win w ∧ w ≠ g.turn (g.player p) ∧
        ∃ m ∈ g.possible_moves p, g.make_move p m = Except.ok c) ∧
    ((∀ m ∈ g.possible_moves p, ∀ c, g.make_move p m = Except.ok c →
        g.state c = GameState.Playable) →
      find_immediately_resolvable_game g p = Except.ok none) := by
  refine ⟨?_, ?_, ?_, ?_⟩
  · intro hex
    obtain ⟨c, h1, h2, h3⟩ := firgAux_win g p (g.possible_moves p) none hok hex
    exact ⟨c, h1, h2, h3⟩
  · intro hnw hex
    obtain ⟨c, h1, h2, h3⟩ :=
      firgAux_tie g p (g.possible_moves p) none hok hnw (Or.inl hex)
    rcases h3 with h3 | h3
    · exact ⟨c, h1, h2, h3⟩
    · cases h3
  · intro hnw hnt hex
    obtain ⟨c, w, h1, h2, h3, h4⟩ :=
      firgAux_opp g p (g.possible_moves p) none hok hnw hnt (Or.inl ⟨rfl, hex⟩)
    rcases h4 with h4 | h4
    · exact ⟨c, w, h1, h2, h3, h4⟩
    · cases h4
  · intro hpl
    exact firgAux_playable g p (g.possible_moves p) none hok hpl

/-- Witness for C8 on the single-move game whose only child is won by the
mover. -/
theorem C8_firg_witness :
    (∀ m ∈ winT.possible_moves 0, ∃ c, winT.make_move 0 m = Except.ok c) ∧
    ((∃ m ∈ winT.possible_moves 0, ∃ c, winT.make_move 0 m = Except.ok c ∧
        winT.state c = GameState.Win (winT.turn (winT.player 0))) →
      ∃ c, find_immediately_resolvable_game winT 0 = Except.ok (some c) ∧
        winT.state c = GameState.Win (winT.turn (winT.player 0)) ∧
        ∃ m ∈ winT.possible_moves 0, winT.make_move 0 m = Except.ok c) := by
  have hok : ∀ m ∈ winT.possible_moves 0, ∃ c,
      winT.make_move 0 m = Except.ok c := fun m _ => ⟨1, rfl⟩
  exact ⟨hok, (C8_firg winT 0 hok).1⟩

/-- C10: `upper_bound` is non-negative; it equals `max_moves` when that is
finite (and fits in `isize`), and equals the sentinel
`isize::MAX = 2^63 - 1` — a value the spec never states — when `max_moves`
is `None`. -/
theorem C10_upper_bound (g : GameT Pos M P E) (p : Pos)
    (hfit : ∀ mx, g.max_moves p = some mx → (mx : Int) < 2 ^ 63) :
    0 ≤ upper_bound g p ∧
    (∀ mx, g.max_moves p = some mx → upper_bound g p = mx) ∧
    (g.max_moves p = none → upper_bound g p = isizeMAX) ∧
    isizeMAX = 2 ^ 63 - 1 := by
  refine ⟨(upper_bound_range g p hfit).1, ?_, ?_, rfl⟩
  · intro mx hmm
    unfold upper_bound
    rw [hmm]
    exact usizeToIsize_small mx (hfit mx hmm)
  · intro hmm
    unfold upper_bound
    rw [hmm]

/-- Witness for C10 on the richer-trait game with `max_moves = 5`. -/
theorem C10_upper_bound_witness :
    (∀ mx, tinyT.max_moves 0 = some mx → (mx : Int) < 2 ^ 63) ∧
    (0 ≤ upper_bound tinyT 0 ∧
      (∀ mx, tinyT.max_moves 0 = some mx → upper_bound tinyT 0 = mx) ∧
      (tinyT.max_moves 0 = none → upper_bound tinyT 0 = isizeMAX) ∧
      isizeMAX = 2 ^ 63 - 1) := by
  have hfit : ∀ mx, tinyT.max_moves 0 = some mx → (mx : Int) < 2 ^ 63 := by
    intro mx h
    cases h
    decide
  exact ⟨hfit, C10_upper_bound tinyT 0 hfit⟩

end GameSolver
